import Mathlib

/-!
# cli_board: command-table dispatcher (`cli.c`, `cli.h`)

A shallow embedding of the dispatcher of `cli.c`.

* A C string is the list of its characters; `c_str` cuts a buffer at its first
  NUL, which is where every libc routine stops reading.
* `strtok` is the libc tokenizer, seen functionally: it takes the text that
  starts at the saved position and returns the token (or NULL) together with
  the text that starts at the new saved position.
* A function pointer is a value of `Handler`.  Calling one is recorded as an
  `Event.call` in the trace of the dispatch; `puts` is recorded as
  `Event.puts`.
* `malloc` is taken to succeed and to return a non-null block, also for a
  request of zero bytes (the behaviour of glibc, the platform of the sources).
* The bodies of the two handlers of `cli.c` are `cmd_dummy`, which gives the
  text printed on the standard output, and `cmd_help`, which gives the system
  calls made on the sink; `sprintf` interprets the format strings of `cli.c`.
* `strtok_mem` is `strtok` together with what it writes into the line buffer;
  `cli_parse_buffer` is the buffer that a call of `cli_parse` leaves.
-/

namespace CliBoard

/-! ## Constants of `cli.h` and `cli.c` -/

/-- Enumerator `CMD_SET_INSTANCE` of `cmd_list_t`. -/
def CMD_SET_INSTANCE : Nat := 0
/-- Enumerator `CMD_DIAGNOSTIC_SPN` of `cmd_list_t`. -/
def CMD_DIAGNOSTIC_SPN : Nat := 1
/-- Enumerator `CMD_FORCE_SPN` of `cmd_list_t`. -/
def CMD_FORCE_SPN : Nat := 2
/-- Enumerator `CMD_SET_OWN_SPN` of `cmd_list_t`. -/
def CMD_SET_OWN_SPN : Nat := 3
/-- Enumerator `CMD_FW_UPGRADE` of `cmd_list_t`. -/
def CMD_FW_UPGRADE : Nat := 4
/-- Enumerator `CMD_FW_UPGRADE_FORCE` of `cmd_list_t`. -/
def CMD_FW_UPGRADE_FORCE : Nat := 5
/-- Enumerator `CMD_FW_UPGRADE_ABORT` of `cmd_list_t`. -/
def CMD_FW_UPGRADE_ABORT : Nat := 6
/-- Enumerator `CMD_HELP` of `cmd_list_t`. -/
def CMD_HELP : Nat := 7
/-- Enumerator `CMD_MAX` of `cmd_list_t`: the number of commands, not a command. -/
def CMD_MAX : Nat := 8

/-- The value of `EXIT_SUCCESS`. -/
def EXIT_SUCCESS : Int := 0
/-- The value of `EXIT_FAILURE`. -/
def EXIT_FAILURE : Int := 1

/-- The delimiter string `delim` of `cli.c`. -/
def delim : List Char := " \n(,);".toList

/-- The program name `vboard_str` of `cli.c`. -/
def vboard_str : List Char := "vboard".toList

/-! ## Data types -/

/-- A function pointer of type `void (*)(int, char **)`: the two handlers
defined in `cli.c`, or a function of the embedding program, named by a number. -/
inductive Handler where
  | cmd_dummy
  | cmd_help
  | user (id : Nat)
  deriving DecidableEq

/-- The struct `cmd_t`; `cmd_func = none` is the NULL pointer. -/
structure cmd_t where
  name : String
  short_name : String
  cmd_func : Option Handler
  argc : Nat
  doc : String
  deriving DecidableEq

/-- An argument vector `char **`: one slot per argument, `none` for NULL. -/
abbrev ArgV := List (Option (List Char))

/-- What a dispatch does to the outside: a line written by `puts`, or a call
through a function pointer with its two arguments. -/
inductive Event where
  | puts (s : String)
  | call (f : Handler) (argc : Nat) (args : ArgV)
  deriving DecidableEq

/-- The file-scope variables of `cli.c`: `cmd_table`, `args_vector` (the value
last assigned to the pointer) and `fifo_name`. -/
structure State where
  cmd_table : List cmd_t
  args_vector : Option ArgV
  fifo_name : Option String
  deriving DecidableEq

/-- The static initializer of `cmd_table`. -/
def cmd_table : List cmd_t :=
  [ { name := "set_instance", short_name := "-i", cmd_func := none, argc := 3,
      doc := "Set a instance of an ECU. vboard -i <type>,<identity>,<instance>.\n\t\ta) vboard -i 10,200,0.\n\t\tb) vboard -i 10,0:5,2:7." },
    { name := "diag_spn", short_name := "-d", cmd_func := none, argc := 4,
      doc := "Send a spn at set period. vboard -d <da>,<spn>,<period>,<-e/-d>.\n\t\ta) vboard -d 22,2838,200,-e (da = 22, spn = 2838, period = 200, enable)." },
    { name := "force_spn", short_name := "-f", cmd_func := none, argc := 4,
      doc := "Force a spn value. vboard -f <da>,<spn>,<value>,<-e/-d>.\n\t\ta) vboard -f 22,2838,xxxx,-e (da = 22, spn = 2838, value = xxxx, enable)." },
    { name := "set_own_spn", short_name := "-s", cmd_func := none, argc := 3,
      doc := "Set own spn value. vboard -s <spn>,<spn_value>,<value_type>.\n\t\ta) vboard -s 520198,1200,-lld. For integers values.\n\t\tb) vboard -s 520198,126.55,-f. For float values.\n\t\tc) vboard -s 520198,-735.28,-lf. For double values.\n\t\td) vboard -s 520198,654090,-r. For raw values." },
    { name := "fw_upgrade", short_name := "-fw", cmd_func := none, argc := 2,
      doc := "Upgrade the firmware of a specific ecu/node. vboard -fw </path_to_fw/binary.bin> <address>." },
    { name := "fw_upgrade_force", short_name := "-fwf", cmd_func := none, argc := 2,
      doc := "Upgrade the firmware of a specific ecu/node without version check. vboard -fw </path_to_fw/binary.bin> <address>." },
    { name := "fw_upgrade_abort", short_name := "-fwa", cmd_func := none, argc := 0,
      doc := "Upgrade firmware abort." },
    { name := "help", short_name := "-h", cmd_func := none, argc := 0,
      doc := "Display this help." } ]

/-- The state at program start: the static initializers of `cli.c`. -/
def initial : State :=
  { cmd_table := cmd_table, args_vector := none, fifo_name := none }

/-! ## The tokenizer -/

/-- The characters of a buffer up to its terminating NUL. -/
def c_str (buf : List Char) : List Char :=
  buf.takeWhile (fun c => c != '\x00')

/-- Membership of a character in `delim`. -/
def is_delim (c : Char) : Bool := delim.contains c

/-- One call of `strtok` with `delim`, on the text `s` at the saved position:
skip the leading delimiters; at the end of the text return NULL; otherwise
return the run up to the next delimiter and move past that delimiter. -/
def strtok (s : List Char) : Option (List Char) × List Char :=
  match s.dropWhile is_delim with
  | [] => (none, [])
  | c :: cs =>
    (some ((c :: cs).takeWhile (fun x => !is_delim x)),
     ((c :: cs).dropWhile (fun x => !is_delim x)).drop 1)

/-- The tokens that repeated calls of `strtok` return on the text `s`, until
the first NULL; `fuel` bounds the number of calls. -/
def tokens_fuel : Nat → List Char → List (List Char)
  | 0, _ => []
  | fuel + 1, s =>
    match strtok s with
    | (none, _) => []
    | (some t, rest) => t :: tokens_fuel fuel rest

/-- All tokens of the text `s`: every token uses at least one character, so
`s.length` calls reach the end. -/
def toks (s : List Char) : List (List Char) := tokens_fuel s.length s

/-- All tokens of an input line, as `cli_parse` meets them. -/
def tokens (line : List Char) : List (List Char) := toks (c_str line)

/-! ## `args_parse` -/

/-- The loop of `args_parse`, with `k = argc - i` iterations left, the slots
`args[0..i-1]` written so far and the text `s` at the saved position.  Each
iteration stores the next `strtok` result in `args[i]` and leaves through
`ESCAPE` when `args[0]` is NULL. -/
def args_parse_loop : Nat → ArgV → List Char → Option ArgV
  | 0, args, _ => some args
  | k + 1, args, s =>
    let r := strtok s
    let args1 := args ++ [r.1]
    match args1.headD none with
    | none => none
    | some _ => args_parse_loop k args1 r.2

/-- The function `args_parse`: the vector (or NULL) and what it prints. -/
def args_parse (argc : Nat) (s : List Char) : Option ArgV × List Event :=
  match args_parse_loop argc [] s with
  | none => (none, [Event.puts "Bad Argument(s)"])
  | some args => (some args, [])

/-! ## `cli_parser_init`, `cli_set_fifo_stream`, `cli_set_cmd_cb` -/

/-- The store `tbl[i].cmd_func = f` for an index inside the table. -/
def set_cmd_func : List cmd_t → Nat → Option Handler → List cmd_t
  | [], _, _ => []
  | c :: cs, 0, f => { c with cmd_func := f } :: cs
  | c :: cs, i + 1, f => c :: set_cmd_func cs i f

/-- The function `cli_set_fifo_stream`; `none` is the NULL pointer. -/
def cli_set_fifo_stream (st : State) (fifo : Option String) : State :=
  match fifo with
  | none => st
  | some p => { st with fifo_name := some p }

/-- The function `cli_parser_init`. -/
def cli_parser_init (st : State) : State :=
  let t0 := set_cmd_func st.cmd_table CMD_SET_INSTANCE (some Handler.cmd_dummy)
  let t1 := set_cmd_func t0 CMD_DIAGNOSTIC_SPN (some Handler.cmd_dummy)
  let t2 := set_cmd_func t1 CMD_FORCE_SPN (some Handler.cmd_dummy)
  let t3 := set_cmd_func t2 CMD_SET_OWN_SPN (some Handler.cmd_dummy)
  let t4 := set_cmd_func t3 CMD_FW_UPGRADE (some Handler.cmd_dummy)
  let t5 := set_cmd_func t4 CMD_FW_UPGRADE_FORCE (some Handler.cmd_dummy)
  let t6 := set_cmd_func t5 CMD_FW_UPGRADE_ABORT (some Handler.cmd_dummy)
  let t7 := set_cmd_func t6 CMD_HELP (some Handler.cmd_help)
  cli_set_fifo_stream { st with cmd_table := t7 } (some "/tmp/pipe_rx")

/-- How a call of `cli_set_cmd_cb` ends: it returns `code` in state `st`, or it
stores through `cmd_table[idx]` with `idx` outside the array, after which the C
program has no defined behaviour. -/
inductive SetCb where
  | ret (code : Int) (st : State)
  | out_of_bounds (idx : Int)
  deriving DecidableEq

/-- The function `cli_set_cmd_cb`; `func = none` is the NULL pointer.  The
guard tests `cmd >= CMD_MAX` and `NULL == func` only; the store that follows
is inside the table exactly when `cmd` is not negative. -/
def cli_set_cmd_cb (st : State) (cmd : Int) (func : Option Handler) : SetCb :=
  if cmd ≥ (CMD_MAX : Int) ∨ func = none then
    SetCb.ret EXIT_FAILURE st
  else if 0 ≤ cmd then
    SetCb.ret EXIT_SUCCESS { st with cmd_table := set_cmd_func st.cmd_table cmd.toNat func }
  else
    SetCb.out_of_bounds cmd

/-! ## `cli_parse` -/

/-- What a dispatch leaves: the state and the trace of events, in order. -/
structure Result where
  state : State
  out : List Event
  deriving DecidableEq

/-- The body of the `if` of the scan loop, entered when the token matched the
descriptor `cur`: parse the arguments, return on NULL, call the handler when it
is not NULL. -/
def cli_parse_match (st : State) (cur : cmd_t) (s : List Char) : Result :=
  let r := args_parse cur.argc s
  let st1 := { st with args_vector := r.1 }
  match r.1 with
  | none => { state := st1, out := r.2 }
  | some args =>
    match cur.cmd_func with
    | some f => { state := st1, out := r.2 ++ [Event.call f cur.argc args] }
    | none => { state := st1, out := r.2 }

/-- The loop `while(i--)` of `cli_parse`, entered with the counter at `i`;
`none` means the loop was left without a `return` (counter at zero, or `break`
on a NULL token), so that control reaches the final `puts`.  The array has
`CMD_MAX` entries, so `cmd_table[i]` always exists in the C program; a list
that is too short is scanned from its last entry. -/
def cli_parse_loop (st : State) (tok : Option (List Char)) (s : List Char) :
    Nat → Option Result
  | 0 => none
  | i + 1 =>
    match st.cmd_table[i]? with
    | none => cli_parse_loop st tok s i
    | some cur =>
      match tok with
      | none => none
      | some t =>
        if t = cur.name.toList ∨ t = cur.short_name.toList then
          some (cli_parse_match st cur s)
        else
          cli_parse_loop st tok s i

/-- The function `cli_parse` on the buffer `cmd`. -/
def cli_parse (st : State) (cmd : List Char) : Result :=
  match strtok (c_str cmd) with
  | (none, _) => { state := st, out := [] }
  | (some tok, s) =>
    if tok = vboard_str then
      let r := strtok s
      match cli_parse_loop st r.1 r.2 CMD_MAX with
      | some res => res
      | none => { state := st, out := [Event.puts "Command Not Found"] }
    else
      { state := st, out := [Event.puts "Command Not Found"] }

/-- The index at which the scan loop of `cli_parse`, entered with the counter
at `i`, finds its match for the token `t`: the first descriptor, from index
`i - 1` downwards, whose name or short name is `t`. -/
def resolve (tbl : List cmd_t) (t : List Char) : Nat → Option Nat
  | 0 => none
  | i + 1 =>
    match tbl[i]? with
    | none => resolve tbl t i
    | some cur =>
      if t = cur.name.toList ∨ t = cur.short_name.toList then some i
      else resolve tbl t i

/-- The fields of a descriptor that no function of `cli.c` writes. -/
def descr (c : cmd_t) : String × String × Nat × String :=
  (c.name, c.short_name, c.argc, c.doc)

/-- The registry invariant: the table holds the built-in descriptors, with
whatever handlers are bound. -/
def TableOK (st : State) : Prop :=
  st.cmd_table.map descr = cmd_table.map descr

instance (st : State) : Decidable (TableOK st) := by
  unfold TableOK; infer_instance

/-! ## The token stream -/

/-- The result of call number `n` (counted from 0) in a run of successive
`strtok` calls on the text `s`. -/
def strtok_n : Nat → List Char → Option (List Char) × List Char
  | 0, s => strtok s
  | n + 1, s => strtok_n n (strtok s).2

/-- The tokens `ts` occur in the text `s` one after the other, from left to
right and without overlap. -/
def InOrder : List (List Char) → List Char → Prop
  | [], _ => True
  | t :: ts, s => ∃ pre post, s = pre ++ t ++ post ∧ InOrder ts post

/-- The maximal non-empty runs of characters of `s` that are not separators:
`s` is cut at every separator and the empty pieces are dropped. -/
def runs (sep : Char → Bool) (s : List Char) : List (List Char) :=
  (s.splitOnP sep).filter (fun r => !r.isEmpty)

/-- The delimiter set as the specification lists it: space, newline, comma and
the two parentheses. -/
def spec_delim : List Char := [' ', '\n', ',', '(', ')']

/-- The token sequence as the specification describes it: the maximal non-empty
runs of characters outside `spec_delim`. -/
def spec_tokens (line : List Char) : List (List Char) :=
  runs (fun c => spec_delim.contains c) (c_str line)

/-! ## Reachable states and the forward scan -/

/-- The states that the program reaches from its start through calls of the
public functions of `cli.h`; `cli_set_cmd_cb` is called with a valid id. -/
inductive Reachable : State → Prop where
  | start : Reachable initial
  | init (st : State) : Reachable st → Reachable (cli_parser_init st)
  | set_cmd_cb (st st1 : State) (c : Int) (f : Option Handler) (code : Int) :
      Reachable st → 0 ≤ c → c < (CMD_MAX : Int) →
      cli_set_cmd_cb st c f = SetCb.ret code st1 → Reachable st1
  | parse (st : State) (line : List Char) : Reachable st → Reachable (cli_parse st line).state
  | set_fifo (st : State) (fifo : Option String) :
      Reachable st → Reachable (cli_set_fifo_stream st fifo)

/-- A scan of the table from the lowest index upwards, as the specification
contrasts it with the scan of the code: the index of the first descriptor whose
name or short name is `t`; `i` is the index of the head of `tbl`. -/
def lookup_forward : List cmd_t → List Char → Nat → Option Nat
  | [], _, _ => none
  | d :: ds, t, i =>
    if t = d.name.toList ∨ t = d.short_name.toList then some i
    else lookup_forward ds t (i + 1)

/-! ## Formatted output and the two handlers of `cli.c`

A character of the model stands for one `char` of the C program. -/

/-- The size `BUFFER_LEN` of the static `buffer`. -/
def BUFFER_LEN : Nat := 512

/-- The conversion `%<width>s` of `printf`: the string, right-justified in a
field of `width` characters by spaces put before it; a longer string is not
cut.  Plain `%s` is width 0. -/
def conv_s (width : Nat) (s : List Char) : List Char :=
  List.replicate (width - s.length) ' ' ++ s

/-- The text that `printf` produces for a format with `%s` and `%<width>s`
conversions, the only ones of `cli.c`.  The third argument is `some w` inside
a conversion specification whose width digits read so far give `w`. -/
def format_go : List Char → List (List Char) → Option Nat → List Char
  | [], _, _ => []
  | c :: fmt, args, none =>
    if c = '%' then format_go fmt args (some 0) else c :: format_go fmt args none
  | c :: fmt, args, some w =>
    if c.isDigit then format_go fmt args (some (10 * w + (c.toNat - '0'.toNat)))
    else if c = 's' then
      match args with
      | a :: rest => conv_s w a ++ format_go fmt rest none
      | [] => format_go fmt [] none
    else format_go fmt args none

/-- The characters that `sprintf(buffer, fmt, args...)` stores before the
terminating NUL; their number is the value that `sprintf` returns. -/
def sprintf (fmt : String) (args : List (List Char)) : List Char :=
  format_go fmt.toList args none

/-- The loop of `cmd_dummy`, with `k = argc - i` iterations left and `buf` the
text in `buffer`: `strcat` of `args[i]`, then of a comma when `i < argc - 1`.
The result is `none` when the C program has no defined behaviour: `args[i]` is
NULL or outside the vector, or the text and its NUL do not fit in `buffer`. -/
def cmd_dummy_loop (argc : Nat) (args : ArgV) : Nat → Nat → List Char → Option (List Char)
  | 0, _, buf => some buf
  | k + 1, i, buf =>
    match args[i]? with
    | some (some a) =>
      let buf1 := buf ++ a
      let buf2 := if i + 1 < argc then buf1 ++ [','] else buf1
      if buf2.length < BUFFER_LEN then cmd_dummy_loop argc args k (i + 1) buf2 else none
    | _ => none

/-- The handler `cmd_dummy`: the text it prints on the standard output, or
`none` when the C program has no defined behaviour. -/
def cmd_dummy (argc : Nat) (args : ArgV) : Option (List Char) :=
  match cmd_dummy_loop argc args argc 0 (sprintf "cmd_dummy: " []) with
  | none => none
  | some buf => some (sprintf "%s\n" [buf])

/-- A system call of `cmd_help` on the sink: `open(fifo_name, O_WRONLY)` with
the path (`none` for NULL), `write` with the bytes it is asked to send, and
`close`. -/
inductive SinkOp where
  | open (path : Option String)
  | write (bytes : List Char)
  | close
  deriving DecidableEq

/-- The text that `cmd_help` formats for the descriptor `cmd`. -/
def help_line (cmd : cmd_t) : List Char :=
  sprintf "%20s (%s) - %s\n" [cmd.name.toList, cmd.short_name.toList, cmd.doc.toList]

/-- The texts that `cmd_help` formats, in order: the header, then one per index
`0 .. CMD_MAX - 1` of the table. -/
def cmd_help_lines (tbl : List cmd_t) : List (List Char) :=
  sprintf "Available Commands:\n" [] ::
    (List.range CMD_MAX).filterMap (fun i => (tbl[i]?).map help_line)

/-- The handler `cmd_help`: the system calls it makes on the sink.  Each text
is formatted into `buffer` and written with `len + 1` bytes, that is with its
terminating NUL.  The result is `none` when a text and its NUL do not fit in
`buffer`. -/
def cmd_help (st : State) (_argc : Nat) (_args : ArgV) : Option (List SinkOp) :=
  let lines := cmd_help_lines st.cmd_table
  if lines.all (fun l => decide (l.length < BUFFER_LEN)) then
    some (SinkOp.open st.fifo_name ::
      (lines.map (fun l => SinkOp.write (l ++ ['\x00'])) ++ [SinkOp.close]))
  else none

/-- The help line as the specification words it: the name padded after its
last character to 20 columns, then the alias in parentheses and the help. -/
def spec_help_line (cmd : cmd_t) : List Char :=
  cmd.name.toList ++ List.replicate (20 - cmd.name.length) ' ' ++ " (".toList ++
    cmd.short_name.toList ++ ") - ".toList ++ cmd.doc.toList ++ "\n".toList

/-! ## The line buffer under `strtok` -/

/-- The buffer that `strtok` works on, cut at the saved position: `done` is the
part before the saved position, as the calls so far left it, and `rem` the part
from the saved position on, terminating NUL and what follows it included. -/
structure TokMem where
  done : List Char
  rem : List Char
  deriving DecidableEq

/-- One call of `strtok` with `delim`, with its effect on the buffer: the
delimiter that ends the token is overwritten with NUL and the saved position
moves behind it; at the end of the text nothing is written and the saved
position stays on the terminating NUL. -/
def strtok_mem (m : TokMem) : Option (List Char) × TokMem :=
  let s := c_str m.rem
  let tail := m.rem.drop s.length
  let lead := s.takeWhile is_delim
  match s.dropWhile is_delim with
  | [] => (none, { done := m.done ++ lead, rem := tail })
  | c :: cs =>
    let tok := (c :: cs).takeWhile (fun x => !is_delim x)
    match (c :: cs).dropWhile (fun x => !is_delim x) with
    | [] => (some tok, { done := m.done ++ lead ++ tok, rem := tail })
    | _ :: r => (some tok, { done := m.done ++ lead ++ tok ++ ['\x00'], rem := r ++ tail })

/-- The loop of `args_parse` as `args_parse_loop`, on the buffer: the vector or
NULL, and the buffer as the calls of `strtok` leave it. -/
def args_parse_loop_mem : Nat → ArgV → TokMem → Option ArgV × TokMem
  | 0, args, m => (some args, m)
  | k + 1, args, m =>
    let r := strtok_mem m
    let args1 := args ++ [r.1]
    match args1.headD none with
    | none => (none, r.2)
    | some _ => args_parse_loop_mem k args1 r.2

/-- The content of the buffer `cmd` when `cli_parse(cmd)` returns: the calls of
`strtok` that `cli_parse` and `args_parse` make, in their order, applied to the
buffer.  The descriptor on which the scan loop runs `args_parse` is the one at
the index that `resolve` gives. -/
def cli_parse_buffer (st : State) (cmd : List Char) : List Char :=
  let r0 := strtok_mem { done := [], rem := cmd }
  match r0.1 with
  | none => r0.2.done ++ r0.2.rem
  | some tok =>
    if tok = vboard_str then
      let r1 := strtok_mem r0.2
      match r1.1 with
      | none => r1.2.done ++ r1.2.rem
      | some t =>
        match resolve st.cmd_table t CMD_MAX with
        | none => r1.2.done ++ r1.2.rem
        | some j =>
          match st.cmd_table[j]? with
          | none => r1.2.done ++ r1.2.rem
          | some cur =>
            let m := (args_parse_loop_mem cur.argc [] r1.2).2
            m.done ++ m.rem
    else r0.2.done ++ r0.2.rem

/-! ## Lemmas on the tokenizer -/

theorem strtok_nil : strtok [] = (none, []) := rfl

theorem strtok_none_eq {s : List Char} (h : (strtok s).1 = none) :
    strtok s = (none, []) := by
  unfold strtok at h ⊢
  cases hd : s.dropWhile is_delim with
  | nil => rfl
  | cons c cs => rw [hd] at h; simp at h

theorem strtok_some_length {s r t : List Char} (h : strtok s = (some t, r)) :
    r.length < s.length := by
  unfold strtok at h
  cases hd : s.dropWhile is_delim with
  | nil => rw [hd] at h; simp at h
  | cons c cs =>
    rw [hd] at h
    simp only [Prod.mk.injEq, Option.some.injEq] at h
    have h1 : (c :: cs).length ≤ s.length := by
      rw [← hd]; exact (List.dropWhile_sublist _).length_le
    have hc : is_delim c = false := by
      have := List.head_dropWhile_not is_delim s (by rw [hd]; simp)
      simpa [hd] using this
    have h2 : ((c :: cs).dropWhile (fun x => !is_delim x)).length ≤ cs.length := by
      rw [List.dropWhile_cons_of_pos (by simp [hc])]
      exact (List.dropWhile_sublist _).length_le
    rw [← h.2]
    simp only [List.length_drop, List.length_cons] at h1 ⊢
    omega

theorem tokens_fuel_irrel : ∀ (n m : Nat) (s : List Char),
    s.length ≤ n → s.length ≤ m → tokens_fuel n s = tokens_fuel m s := by
  intro n
  induction n with
  | zero =>
    intro m s hn _
    have hs : s = [] := List.length_eq_zero.mp (Nat.le_zero.mp hn)
    subst hs
    cases m with
    | zero => rfl
    | succ m => simp [tokens_fuel, strtok_nil]
  | succ n ih =>
    intro m s hn hm
    cases m with
    | zero =>
      have hs : s = [] := List.length_eq_zero.mp (Nat.le_zero.mp hm)
      subst hs
      simp [tokens_fuel, strtok_nil]
    | succ m =>
      simp only [tokens_fuel]
      rcases hst : strtok s with ⟨o, r⟩
      cases o with
      | none => rfl
      | some t =>
        have hl := strtok_some_length hst
        simp only
        rw [ih m r (by omega) (by omega)]

theorem toks_of_strtok_none {s r : List Char} (h : strtok s = (none, r)) :
    toks s = [] := by
  unfold toks
  cases hl : s.length with
  | zero => rfl
  | succ k => simp [tokens_fuel, h]

theorem toks_of_strtok_some {s r t : List Char} (h : strtok s = (some t, r)) :
    toks s = t :: toks r := by
  have hl := strtok_some_length h
  unfold toks
  cases hk : s.length with
  | zero => omega
  | succ k =>
    simp only [tokens_fuel, h]
    rw [tokens_fuel_irrel k r.length r (by omega) (Nat.le_refl _)]

/-- The two ways a call of `strtok` can end, in terms of the token list. -/
theorem strtok_cases (s : List Char) :
    (strtok s = (none, []) ∧ toks s = []) ∨
    (∃ t r, strtok s = (some t, r) ∧ toks s = t :: toks r) := by
  rcases hst : strtok s with ⟨o, r⟩
  cases o with
  | none =>
    left
    have h1 : strtok s = (none, []) := strtok_none_eq (by rw [hst])
    exact ⟨by rw [← hst, h1], toks_of_strtok_none h1⟩
  | some t => right; exact ⟨t, r, rfl, toks_of_strtok_some hst⟩

theorem toks_nil : toks [] = [] := rfl

/-! ## Lemmas on `args_parse` -/

/-- With at least `k` tokens left and `args[0]` not NULL (or not yet written),
the loop of `args_parse` appends the next `k` tokens. -/
theorem args_parse_loop_enough : ∀ (k : Nat) (args : ArgV) (s : List Char),
    k ≤ (toks s).length → (args = [] ∨ ∃ a l, args = some a :: l) →
    args_parse_loop k args s = some (args ++ ((toks s).take k).map some) := by
  intro k
  induction k with
  | zero => intro args s _ _; simp [args_parse_loop]
  | succ k ih =>
    intro args s hk hargs
    rcases strtok_cases s with ⟨_, h0⟩ | ⟨t, r, hst, htk⟩
    · rw [h0] at hk; simp at hk
    · rw [htk] at hk ⊢
      simp only [List.length_cons, Nat.add_le_add_iff_right] at hk
      have hhead : ∃ a l, args ++ [some t] = some a :: l := by
        rcases hargs with h | ⟨a, l, h⟩
        · exact ⟨t, [], by simp [h]⟩
        · exact ⟨a, l ++ [some t], by simp [h]⟩
      obtain ⟨a, l, hal⟩ := hhead
      simp only [args_parse_loop, hst, hal, List.headD_cons]
      rw [← hal, ih (args ++ [some t]) r hk (Or.inr ⟨a, l, hal⟩)]
      simp

theorem args_parse_enough (argc : Nat) (s : List Char) (h : argc ≤ (toks s).length) :
    args_parse argc s = (some (((toks s).take argc).map some), []) := by
  unfold args_parse
  rw [args_parse_loop_enough argc [] s h (Or.inl rfl)]
  simp

/-! ## Lemmas on the scan loop -/

theorem cli_parse_loop_none (st : State) (s : List Char) :
    ∀ i, cli_parse_loop st none s i = none := by
  intro i
  induction i with
  | zero => rfl
  | succ i ih =>
    simp only [cli_parse_loop]
    cases st.cmd_table[i]? with
    | none => exact ih
    | some cur => rfl

/-- The scan loop runs the matched branch on the descriptor that `resolve`
selects, and is left without a `return` when `resolve` selects none. -/
theorem cli_parse_loop_resolve (st : State) (t s : List Char) :
    ∀ i, cli_parse_loop st (some t) s i =
      (resolve st.cmd_table t i).bind
        (fun j => (st.cmd_table[j]?).map (fun cur => cli_parse_match st cur s)) := by
  intro i
  induction i with
  | zero => rfl
  | succ i ih =>
    simp only [cli_parse_loop, resolve]
    cases hi : st.cmd_table[i]? with
    | none => simpa using ih
    | some cur =>
      simp only
      split
      · simp [hi]
      · exact ih

theorem resolve_congr (tbl tbl1 : List cmd_t) (t : List Char)
    (h : tbl.map descr = tbl1.map descr) :
    ∀ i, resolve tbl t i = resolve tbl1 t i := by
  intro i
  induction i with
  | zero => rfl
  | succ i ih =>
    have hi : (tbl.map descr)[i]? = (tbl1.map descr)[i]? := by rw [h]
    simp only [List.getElem?_map] at hi
    simp only [resolve]
    cases h1 : tbl[i]? with
    | none =>
      cases h2 : tbl1[i]? with
      | none => exact ih
      | some c2 => rw [h1, h2] at hi; simp at hi
    | some c1 =>
      cases h2 : tbl1[i]? with
      | none => rw [h1, h2] at hi; simp at hi
      | some c2 =>
        rw [h1, h2] at hi
        simp only [Option.map_some', Option.some.injEq, descr, Prod.mk.injEq] at hi
        simp only [hi.1, hi.2.1, ih]

theorem resolve_no_match (tbl : List cmd_t) (t : List Char)
    (h : ∀ d ∈ tbl, t ≠ d.name.toList ∧ t ≠ d.short_name.toList) :
    ∀ i, resolve tbl t i = none := by
  intro i
  induction i with
  | zero => rfl
  | succ i ih =>
    simp only [resolve]
    cases hi : tbl[i]? with
    | none => exact ih
    | some cur =>
      have hm := h cur (List.getElem?_mem hi)
      simp only
      rw [if_neg (fun hc => hc.elim hm.1 hm.2)]
      exact ih

/-- On the built-in table, the name and the short name of the descriptor at
index `c` both resolve to `c`. -/
theorem resolve_builtin (c : Nat) (d : cmd_t) (hd : cmd_table[c]? = some d) :
    resolve cmd_table d.name.toList CMD_MAX = some c ∧
    resolve cmd_table d.short_name.toList CMD_MAX = some c := by
  have hc : c < 8 := by
    have := (List.getElem?_eq_some_iff.mp hd).1
    simpa [cmd_table] using this
  interval_cases c <;>
    (simp only [cmd_table, List.getElem?_cons_zero, List.getElem?_cons_succ,
       Option.some.injEq] at hd
     subst hd
     exact ⟨by decide, by decide⟩)

theorem args_parse_loop_toks : ∀ (k : Nat) (args : ArgV) (s s1 : List Char),
    toks s = toks s1 → args_parse_loop k args s = args_parse_loop k args s1 := by
  intro k
  induction k with
  | zero => intro args s s1 _; rfl
  | succ k ih =>
    intro args s s1 h
    rcases strtok_cases s with ⟨ha, hb⟩ | ⟨t, r, ha, hb⟩ <;>
      rcases strtok_cases s1 with ⟨hc, hd⟩ | ⟨t1, r1, hc, hd⟩
    · simp only [args_parse_loop, ha, hc]
    · rw [hb, hd] at h; simp at h
    · rw [hb, hd] at h; simp at h
    · rw [hb, hd] at h
      simp only [List.cons.injEq] at h
      simp only [args_parse_loop, ha, hc, h.1]
      rw [ih (args ++ [some t1]) r r1 h.2]

theorem cli_parse_match_toks (st : State) (cur : cmd_t) (s s1 : List Char)
    (h : toks s = toks s1) : cli_parse_match st cur s = cli_parse_match st cur s1 := by
  unfold cli_parse_match args_parse
  rw [args_parse_loop_toks cur.argc [] s s1 h]

/-! ## Lemmas on `cli_parse` -/

theorem cli_parse_no_token (st : State) (line : List Char) (h : tokens line = []) :
    cli_parse st line = { state := st, out := [] } := by
  unfold tokens at h
  rcases strtok_cases (c_str line) with ⟨ha, _⟩ | ⟨t, r, _, hb⟩
  · simp only [cli_parse, ha]
  · rw [hb] at h; simp at h

theorem cli_parse_other_program (st : State) (line t : List Char) (rest : List (List Char))
    (h : tokens line = t :: rest) (ht : t ≠ vboard_str) :
    cli_parse st line = { state := st, out := [Event.puts "Command Not Found"] } := by
  unfold tokens at h
  rcases strtok_cases (c_str line) with ⟨_, hb⟩ | ⟨t0, r, ha, hb⟩
  · rw [hb] at h; simp at h
  · rw [hb] at h
    simp only [List.cons.injEq] at h
    simp only [cli_parse, ha, h.1, if_neg ht]

theorem cli_parse_no_command (st : State) (line : List Char)
    (h : tokens line = [vboard_str]) :
    cli_parse st line = { state := st, out := [Event.puts "Command Not Found"] } := by
  unfold tokens at h
  rcases strtok_cases (c_str line) with ⟨_, hb⟩ | ⟨t0, r, ha, hb⟩
  · rw [hb] at h; simp at h
  · rw [hb] at h
    simp only [List.cons.injEq] at h
    rcases strtok_cases r with ⟨hc, _⟩ | ⟨t1, r1, _, hd⟩
    · simp only [cli_parse, ha, h.1, if_true, hc, cli_parse_loop_none]
    · rw [hd] at h; simp at h

/-- After the program name and a command token `t`, `cli_parse` is its scan
loop on `t`, run on a text whose tokens are the remaining tokens of the line. -/
theorem cli_parse_command (st : State) (line t : List Char) (rest : List (List Char))
    (h : tokens line = vboard_str :: t :: rest) :
    ∃ s, toks s = rest ∧
      cli_parse st line =
        match cli_parse_loop st (some t) s CMD_MAX with
        | some res => res
        | none => { state := st, out := [Event.puts "Command Not Found"] } := by
  unfold tokens at h
  rcases strtok_cases (c_str line) with ⟨_, hb⟩ | ⟨t0, r, ha, hb⟩
  · rw [hb] at h; simp at h
  · rw [hb] at h
    simp only [List.cons.injEq] at h
    rcases strtok_cases r with ⟨_, hd⟩ | ⟨t1, r1, hc, hd⟩
    · rw [hd] at h; simp at h
    · rw [hd] at h
      simp only [List.cons.injEq] at h
      refine ⟨r1, h.2.2, ?_⟩
      simp only [cli_parse, ha, h.1, if_true, hc, h.2.1]

theorem cli_parse_unknown (st : State) (line t : List Char) (rest : List (List Char))
    (h : tokens line = vboard_str :: t :: rest)
    (hn : ∀ d ∈ st.cmd_table, t ≠ d.name.toList ∧ t ≠ d.short_name.toList) :
    cli_parse st line = { state := st, out := [Event.puts "Command Not Found"] } := by
  obtain ⟨s, _, hp⟩ := cli_parse_command st line t rest h
  rw [hp, cli_parse_loop_resolve, resolve_no_match st.cmd_table t hn]
  rfl

/-- Under the registry invariant, the name and the short name of the
descriptor at index `c` both resolve to `c`. -/
theorem resolve_table_ok (st : State) (hst : TableOK st) (c : Nat) (d : cmd_t)
    (hd : st.cmd_table[c]? = some d) :
    resolve st.cmd_table d.name.toList CMD_MAX = some c ∧
    resolve st.cmd_table d.short_name.toList CMD_MAX = some c := by
  have hi : (st.cmd_table.map descr)[c]? = (cmd_table.map descr)[c]? := by rw [hst]
  simp only [List.getElem?_map, hd, Option.map_some'] at hi
  cases hb : cmd_table[c]? with
  | none => rw [hb] at hi; simp at hi
  | some b =>
    rw [hb] at hi
    simp only [Option.map_some', Option.some.injEq, descr, Prod.mk.injEq] at hi
    have hr := resolve_builtin c b hb
    rw [resolve_congr st.cmd_table cmd_table _ hst, resolve_congr st.cmd_table cmd_table _ hst,
      hi.1, hi.2.1]
    exact hr

/-- Under the registry invariant, a line `vboard <name or alias of d> ...` runs
the matched branch of the scan loop on `d`. -/
theorem cli_parse_known (st : State) (hst : TableOK st) (c : Nat) (d : cmd_t)
    (hd : st.cmd_table[c]? = some d) (line t : List Char) (rest : List (List Char))
    (ht : t = d.name.toList ∨ t = d.short_name.toList)
    (h : tokens line = vboard_str :: t :: rest) :
    ∃ s, toks s = rest ∧ cli_parse st line = cli_parse_match st d s := by
  obtain ⟨s, hs, hp⟩ := cli_parse_command st line t rest h
  refine ⟨s, hs, ?_⟩
  have hr := resolve_table_ok st hst c d hd
  have hres : resolve st.cmd_table t CMD_MAX = some c := by
    rcases ht with ht | ht
    · rw [ht]; exact hr.1
    · rw [ht]; exact hr.2
  rw [hp, cli_parse_loop_resolve, hres]
  simp [hd]

/-- Under the registry invariant, with a handler bound and enough tokens, the
dispatch is one call of the handler on the first `argc` remaining tokens. -/
theorem cli_parse_known_enough (st : State) (hst : TableOK st) (c : Nat) (d : cmd_t)
    (f : Handler) (hd : st.cmd_table[c]? = some d) (hf : d.cmd_func = some f)
    (line t : List Char) (rest : List (List Char))
    (ht : t = d.name.toList ∨ t = d.short_name.toList)
    (h : tokens line = vboard_str :: t :: rest) (hn : d.argc ≤ rest.length) :
    cli_parse st line =
      { state := { st with args_vector := some ((rest.take d.argc).map some) },
        out := [Event.call f d.argc ((rest.take d.argc).map some)] } := by
  obtain ⟨s, hs, hp⟩ := cli_parse_known st hst c d hd line t rest ht h
  rw [hp]
  unfold cli_parse_match
  rw [args_parse_enough d.argc s (by rw [hs]; exact hn), hs]
  simp [hf]

theorem tokens_only_delims (line : List Char)
    (h : ∀ c ∈ c_str line, is_delim c = true) : tokens line = [] := by
  unfold tokens
  apply toks_of_strtok_none (r := [])
  unfold strtok
  rw [List.dropWhile_eq_nil_iff.mpr h]

/-! ## Lemmas on the stores into the table -/

theorem set_cmd_func_descr : ∀ (tbl : List cmd_t) (i : Nat) (f : Option Handler),
    (set_cmd_func tbl i f).map descr = tbl.map descr := by
  intro tbl
  induction tbl with
  | nil => intro i f; rfl
  | cons c cs ih =>
    intro i f
    cases i with
    | zero => rfl
    | succ i => simp only [set_cmd_func, List.map_cons, ih]

theorem set_cmd_func_length : ∀ (tbl : List cmd_t) (i : Nat) (f : Option Handler),
    (set_cmd_func tbl i f).length = tbl.length := by
  intro tbl i f
  have h := congrArg List.length (set_cmd_func_descr tbl i f)
  simpa using h

theorem set_cmd_func_getElem? : ∀ (tbl : List cmd_t) (i j : Nat) (f : Option Handler),
    (set_cmd_func tbl i f)[j]? =
      if j = i then (tbl[j]?).map (fun d => { d with cmd_func := f }) else tbl[j]? := by
  intro tbl
  induction tbl with
  | nil => intro i j f; simp [set_cmd_func]
  | cons c cs ih =>
    intro i j f
    cases i with
    | zero =>
      cases j with
      | zero => simp [set_cmd_func]
      | succ j => simp [set_cmd_func]
    | succ i =>
      cases j with
      | zero => simp [set_cmd_func]
      | succ j => simp [set_cmd_func, ih]

theorem cli_set_cmd_cb_success (st st1 : State) (c : Int) (f : Option Handler)
    (h : cli_set_cmd_cb st c f = SetCb.ret EXIT_SUCCESS st1) :
    0 ≤ c ∧ c < (CMD_MAX : Int) ∧ f ≠ none ∧
      st1 = { st with cmd_table := set_cmd_func st.cmd_table c.toNat f } := by
  unfold cli_set_cmd_cb at h
  split at h
  · simp [EXIT_SUCCESS, EXIT_FAILURE] at h
  · rename_i hg
    split at h
    · rename_i h0
      simp only [SetCb.ret.injEq, true_and] at h
      refine ⟨h0, ?_, ?_, h.symm⟩
      · omega
      · intro hf; exact hg (Or.inr hf)
    · simp at h

/-! ## Lemmas on the token stream -/

/-- Induction along the calls of `strtok`. -/
theorem toks_induction (P : List Char → Prop)
    (hnone : ∀ s, strtok s = (none, []) → toks s = [] → P s)
    (hsome : ∀ s t r, strtok s = (some t, r) → toks s = t :: toks r → P r → P s) :
    ∀ s, P s := by
  have key : ∀ n, ∀ s : List Char, s.length = n → P s := by
    intro n
    induction n using Nat.strong_induction_on with
    | _ n ih =>
      intro s hn
      rcases strtok_cases s with ⟨ha, hb⟩ | ⟨t, r, ha, hb⟩
      · exact hnone s ha hb
      · have hl := strtok_some_length ha
        exact hsome s t r ha hb (ih r.length (by omega) r rfl)
  exact fun s => key _ s rfl

/-- The shape of the text around the token that a call of `strtok` returns. -/
theorem strtok_some_shape {s t r : List Char} (h : strtok s = (some t, r)) :
    t ≠ [] ∧ (∀ c ∈ t, is_delim c = false) ∧
    ∃ pre d, s = pre ++ t ++ d ++ r ∧ (∀ c ∈ pre, is_delim c = true) ∧
      (∀ c ∈ d, is_delim c = true) ∧ d.length ≤ 1 ∧ (d = [] → r = []) := by
  unfold strtok at h
  cases hd : s.dropWhile is_delim with
  | nil => rw [hd] at h; simp at h
  | cons c cs =>
    rw [hd] at h
    simp only [Prod.mk.injEq, Option.some.injEq] at h
    have hc : is_delim c = false := by
      have := List.head_dropWhile_not is_delim s (by rw [hd]; simp)
      simpa [hd] using this
    have hs : s = s.takeWhile is_delim ++ (c :: cs) := by
      rw [← hd]; exact (List.takeWhile_append_dropWhile is_delim s).symm
    have hs1 : (c :: cs) = (c :: cs).takeWhile (fun x => !is_delim x) ++
        (c :: cs).dropWhile (fun x => !is_delim x) :=
      (List.takeWhile_append_dropWhile _ _).symm
    obtain ⟨h1, h2⟩ := h
    refine ⟨?_, ?_, ?_⟩
    · rw [← h1, List.takeWhile_cons_of_pos (by simp [hc])]; simp
    · intro x hx
      rw [← h1] at hx
      have := List.mem_takeWhile_imp hx
      simpa using this
    · refine ⟨s.takeWhile is_delim, ((c :: cs).dropWhile (fun x => !is_delim x)).take 1,
        ?_, ?_, ?_, ?_, ?_⟩
      · rw [← h1, ← h2, List.append_assoc, List.append_assoc, List.take_append_drop, ← hs1]
        exact hs
      · intro x hx; exact List.mem_takeWhile_imp hx
      · intro x hx
        cases hdw : (c :: cs).dropWhile (fun x => !is_delim x) with
        | nil => rw [hdw] at hx; simp at hx
        | cons y ys =>
          rw [hdw] at hx
          simp only [List.take_succ_cons, List.take_zero, List.mem_singleton] at hx
          have := List.head_dropWhile_not (fun x => !is_delim x) (c :: cs) (by rw [hdw]; simp)
          simp only [hdw, List.head_cons] at this
          rw [hx]; simpa using this
      · simp only [List.length_take]; omega
      · intro hnil
        rw [← h2]
        cases hdw : (c :: cs).dropWhile (fun x => !is_delim x) with
        | nil => rfl
        | cons y ys => rw [hdw] at hnil; simp at hnil

theorem strtok_n_toks : ∀ (i : Nat) (s : List Char), (strtok_n i s).1 = (toks s)[i]? := by
  intro i
  induction i with
  | zero =>
    intro s
    rcases strtok_cases s with ⟨ha, hb⟩ | ⟨t, r, ha, hb⟩
    · simp [strtok_n, ha, hb]
    · simp [strtok_n, ha, hb]
  | succ i ih =>
    intro s
    rcases strtok_cases s with ⟨ha, hb⟩ | ⟨t, r, ha, hb⟩
    · simp only [strtok_n, ha, hb, ih, toks_nil]; simp
    · simp only [strtok_n, ha, hb, ih]; simp

theorem InOrder_append_left : ∀ (ts : List (List Char)) (x s : List Char),
    InOrder ts s → InOrder ts (x ++ s) := by
  intro ts x s h
  cases ts with
  | nil => trivial
  | cons t ts =>
    obtain ⟨pre, post, hs, hp⟩ := h
    exact ⟨x ++ pre, post, by rw [hs]; simp, hp⟩

theorem toks_wellformed : ∀ s : List Char,
    (∀ t ∈ toks s, t ≠ [] ∧ (∀ c ∈ t, is_delim c = false) ∧ t <:+: s) ∧ InOrder (toks s) s := by
  apply toks_induction
  · intro s _ hb
    rw [hb]
    exact ⟨by simp, trivial⟩
  · intro s t r ha hb ih
    obtain ⟨h1, h2, pre, d, hs, _, _, _, _⟩ := strtok_some_shape ha
    have hr : r <:+: s := ⟨pre ++ t ++ d, [], by rw [hs]; simp⟩
    rw [hb]
    refine ⟨?_, ?_⟩
    · intro x hx
      rcases List.mem_cons.mp hx with hx | hx
      · subst hx
        exact ⟨h1, h2, ⟨pre, d ++ r, by rw [hs]; simp⟩⟩
      · obtain ⟨g1, g2, g3⟩ := ih.1 x hx
        exact ⟨g1, g2, g3.trans hr⟩
    · exact ⟨pre, d ++ r, by rw [hs]; simp, InOrder_append_left _ d r ih.2⟩

/-! ## Lemmas on `runs` -/

theorem runs_nil (p : Char → Bool) : runs p [] = [] := by
  simp [runs, List.splitOnP_nil]

theorem runs_cons_sep (p : Char → Bool) (c : Char) (s : List Char) (h : p c = true) :
    runs p (c :: s) = runs p s := by
  simp [runs, List.splitOnP_cons, h]

theorem runs_dropWhile (p : Char → Bool) : ∀ s : List Char,
    runs p s = runs p (s.dropWhile p) := by
  intro s
  induction s with
  | nil => rfl
  | cons c s ih =>
    by_cases h : p c = true
    · rw [List.dropWhile_cons_of_pos h, runs_cons_sep p c s h, ih]
    · rw [List.dropWhile_cons_of_neg h]

theorem runs_all_sep (p : Char → Bool) (s : List Char) (h : s.dropWhile p = []) :
    runs p s = [] := by
  rw [runs_dropWhile, h, runs_nil]

/-- A run of non-separators followed by the end of the text or by a separator
is the first run of the text. -/
theorem runs_first (p : Char → Bool) (t d r : List Char) (ht : t ≠ [])
    (hnp : ∀ c ∈ t, p c = false) (hd : ∀ c ∈ d, p c = true) (hlen : d.length ≤ 1)
    (hr : d = [] → r = []) : runs p (t ++ d ++ r) = t :: runs p r := by
  have ht1 : (!t.isEmpty) = true := by
    cases t with
    | nil => exact absurd rfl ht
    | cons _ _ => rfl
  cases d with
  | nil =>
    rw [hr rfl]
    simp only [List.append_nil, runs]
    rw [List.splitOnP_eq_single p t (by intro x hx; simp [hnp x hx]), List.splitOnP_nil]
    simp [ht1]
  | cons y ys =>
    have hys : ys = [] := by
      cases ys with
      | nil => rfl
      | cons _ _ => simp at hlen
    subst hys
    have hy : p y = true := hd y (by simp)
    simp only [runs, List.append_assoc, List.singleton_append]
    rw [List.splitOnP_first p t (by intro x hx; simp [hnp x hx]) y hy r]
    simp [ht1]

theorem toks_eq_runs : ∀ s : List Char, toks s = runs is_delim s := by
  apply toks_induction
  · intro s ha hb
    rw [hb]
    have hdw : s.dropWhile is_delim = [] := by
      unfold strtok at ha
      cases hd : s.dropWhile is_delim with
      | nil => rfl
      | cons c cs => rw [hd] at ha; simp at ha
    exact (runs_all_sep is_delim s hdw).symm
  · intro s t r ha hb ih
    obtain ⟨h1, h2, pre, d, hs, hpre, hd, hlen, hr⟩ := strtok_some_shape ha
    rw [hb, ih]
    have hpre1 : ∀ (l : List Char), (∀ c ∈ l, is_delim c = true) → ∀ x : List Char,
        runs is_delim (l ++ x) = runs is_delim x := by
      intro l
      induction l with
      | nil => intro _ x; rfl
      | cons c l ihl =>
        intro hl x
        rw [List.cons_append, runs_cons_sep is_delim c _ (hl c (by simp))]
        exact ihl (fun y hy => hl y (List.mem_cons_of_mem _ hy)) x
    rw [hs, List.append_assoc, List.append_assoc, hpre1 pre hpre, ← List.append_assoc]
    exact (runs_first is_delim t d r h1 h2 hd hlen hr).symm

/-! ## The exact behaviour of `args_parse` -/

/-- Once `args[0]` holds a token, the loop of `args_parse` never leaves through
`ESCAPE`: it stores the tokens that remain and then NULL in every further slot. -/
theorem args_parse_loop_started : ∀ (k : Nat) (args : ArgV) (s : List Char),
    (∃ a l, args = some a :: l) →
    args_parse_loop k args s =
      some (args ++ (((toks s).take k).map some ++
        List.replicate (k - (toks s).length) none)) := by
  intro k
  induction k with
  | zero => intro args s _; simp [args_parse_loop]
  | succ k ih =>
    intro args s hargs
    obtain ⟨a, l, hal⟩ := hargs
    rcases strtok_cases s with ⟨ha, hb⟩ | ⟨t, r, ha, hb⟩
    · have h1 : ∃ a1 l1, args ++ [none] = some a1 :: l1 := ⟨a, l ++ [none], by simp [hal]⟩
      have h2 := ih (args ++ [none]) [] h1
      subst hal
      simp only [args_parse_loop, ha, hb, List.cons_append, List.headD_cons]
      rw [← List.cons_append, h2]
      simp [toks_nil, List.replicate_succ]
    · have h1 : ∃ a1 l1, args ++ [some t] = some a1 :: l1 := ⟨a, l ++ [some t], by simp [hal]⟩
      have h2 := ih (args ++ [some t]) r h1
      subst hal
      simp only [args_parse_loop, ha, hb, List.cons_append, List.headD_cons]
      rw [← List.cons_append, h2]
      simp

/-- The exact result of `args_parse`. -/
theorem args_parse_exact (n : Nat) (s : List Char) :
    args_parse n s =
      if 1 ≤ n ∧ toks s = [] then (none, [Event.puts "Bad Argument(s)"])
      else (some (((toks s).take n).map some ++
        List.replicate (n - (toks s).length) none), []) := by
  cases n with
  | zero => simp [args_parse, args_parse_loop]
  | succ k =>
    rcases strtok_cases s with ⟨ha, hb⟩ | ⟨t, r, ha, hb⟩
    · simp [args_parse, args_parse_loop, ha, hb]
    · have h := args_parse_loop_started k [some t] r ⟨t, [], rfl⟩
      simp only [args_parse, args_parse_loop, ha, hb, List.nil_append, List.headD_cons, h]
      simp

/-- Under the registry invariant, the table has an entry at every index where
the static table has one, with the same name, short name, arity and help. -/
theorem table_ok_entry (st : State) (hst : TableOK st) (c : Nat) (d : cmd_t)
    (hd : cmd_table[c]? = some d) :
    ∃ d1, st.cmd_table[c]? = some d1 ∧ descr d1 = descr d := by
  have hi : (st.cmd_table.map descr)[c]? = (cmd_table.map descr)[c]? := by rw [hst]
  simp only [List.getElem?_map, hd, Option.map_some'] at hi
  cases hb : st.cmd_table[c]? with
  | none => rw [hb] at hi; simp at hi
  | some b =>
    rw [hb] at hi
    simp only [Option.map_some', Option.some.injEq] at hi
    exact ⟨b, rfl, hi⟩

theorem table_ok_initial : TableOK initial := rfl

theorem table_ok_length (st : State) (hst : TableOK st) : st.cmd_table.length = CMD_MAX := by
  have h := congrArg List.length hst
  simpa [cmd_table, CMD_MAX] using h

/-! ## Lemmas on the registry -/

theorem cli_parse_match_table (st : State) (cur : cmd_t) (s : List Char) :
    (cli_parse_match st cur s).state.cmd_table = st.cmd_table ∧
    (cli_parse_match st cur s).state.fifo_name = st.fifo_name := by
  unfold cli_parse_match
  rcases args_parse cur.argc s with ⟨a, o⟩
  cases a <;> cases cur.cmd_func <;> exact ⟨rfl, rfl⟩

theorem cli_parse_loop_table (st : State) (tok : Option (List Char)) (s : List Char) :
    ∀ (i : Nat) (res : Result), cli_parse_loop st tok s i = some res →
      res.state.cmd_table = st.cmd_table ∧ res.state.fifo_name = st.fifo_name := by
  intro i
  induction i with
  | zero => intro res h; simp [cli_parse_loop] at h
  | succ i ih =>
    intro res h
    simp only [cli_parse_loop] at h
    cases hi : st.cmd_table[i]? with
    | none => rw [hi] at h; exact ih res h
    | some cur =>
      rw [hi] at h
      cases tok with
      | none => simp at h
      | some t =>
        simp only at h
        split at h
        · simp only [Option.some.injEq] at h
          rw [← h]
          exact cli_parse_match_table st cur s
        · exact ih res h

/-- The function `cli_parse` writes neither `cmd_table` nor `fifo_name`. -/
theorem cli_parse_table (st : State) (line : List Char) :
    (cli_parse st line).state.cmd_table = st.cmd_table ∧
    (cli_parse st line).state.fifo_name = st.fifo_name := by
  unfold cli_parse
  split
  · exact ⟨rfl, rfl⟩
  · split
    · simp only
      split
      · rename_i res h
        exact cli_parse_loop_table st _ _ _ res h
      · exact ⟨rfl, rfl⟩
    · exact ⟨rfl, rfl⟩

theorem cli_parser_init_descr (st : State) :
    (cli_parser_init st).cmd_table.map descr = st.cmd_table.map descr := by
  simp only [cli_parser_init, cli_set_fifo_stream, set_cmd_func_descr]

theorem cli_set_cmd_cb_descr (st st1 : State) (c : Int) (f : Option Handler) (code : Int)
    (h : cli_set_cmd_cb st c f = SetCb.ret code st1) :
    st1.cmd_table.map descr = st.cmd_table.map descr := by
  unfold cli_set_cmd_cb at h
  split at h
  · simp only [SetCb.ret.injEq] at h; rw [← h.2]
  · split at h
    · simp only [SetCb.ret.injEq] at h
      rw [← h.2]
      exact set_cmd_func_descr _ _ _
    · simp at h

theorem cli_set_fifo_stream_table (st : State) (fifo : Option String) :
    (cli_set_fifo_stream st fifo).cmd_table = st.cmd_table := by
  cases fifo <;> rfl

theorem reachable_table_ok (st : State) (h : Reachable st) : TableOK st := by
  induction h with
  | start => exact table_ok_initial
  | init st _ ih => exact (cli_parser_init_descr st).trans ih
  | set_cmd_cb st st1 c f code _ _ _ hset ih =>
    exact (cli_set_cmd_cb_descr st st1 c f code hset).trans ih
  | parse st line _ ih =>
    unfold TableOK
    rw [(cli_parse_table st line).1]
    exact ih
  | set_fifo st fifo _ ih =>
    unfold TableOK
    rw [cli_set_fifo_stream_table]
    exact ih

/-! ## Lemmas on the scan order -/

/-- What `resolve` returns: the highest index below `i` with a match. -/
theorem resolve_some (tbl : List cmd_t) (t : List Char) :
    ∀ (i j : Nat), resolve tbl t i = some j →
      j < i ∧ (∃ d, tbl[j]? = some d ∧ (t = d.name.toList ∨ t = d.short_name.toList)) ∧
      ∀ k d, j < k → k < i → tbl[k]? = some d →
        ¬ (t = d.name.toList ∨ t = d.short_name.toList) := by
  intro i
  induction i with
  | zero => intro j h; simp [resolve] at h
  | succ i ih =>
    intro j h
    simp only [resolve] at h
    cases hi : tbl[i]? with
    | none =>
      rw [hi] at h
      obtain ⟨h1, h2, h3⟩ := ih j h
      refine ⟨by omega, h2, ?_⟩
      intro k d hjk hki hk
      by_cases hke : k = i
      · subst hke; rw [hi] at hk; simp at hk
      · exact h3 k d hjk (by omega) hk
    | some cur =>
      rw [hi] at h
      simp only at h
      split at h
      · rename_i hm
        simp only [Option.some.injEq] at h
        subst h
        exact ⟨by omega, ⟨cur, hi, hm⟩, fun k d hjk hki _ => by omega⟩
      · rename_i hm
        obtain ⟨h1, h2, h3⟩ := ih j h
        refine ⟨by omega, h2, ?_⟩
        intro k d hjk hki hk
        by_cases hke : k = i
        · subst hke
          rw [hi] at hk
          simp only [Option.some.injEq] at hk
          subst hk
          exact hm
        · exact h3 k d hjk (by omega) hk

theorem resolve_none (tbl : List cmd_t) (t : List Char) :
    ∀ (i : Nat), resolve tbl t i = none →
      ∀ k d, k < i → tbl[k]? = some d →
        ¬ (t = d.name.toList ∨ t = d.short_name.toList) := by
  intro i
  induction i with
  | zero => intro _ k d hk; omega
  | succ i ih =>
    intro h k d hki hk
    simp only [resolve] at h
    cases hi : tbl[i]? with
    | none =>
      rw [hi] at h
      by_cases hke : k = i
      · subst hke; rw [hi] at hk; simp at hk
      · exact ih h k d (by omega) hk
    | some cur =>
      rw [hi] at h
      simp only at h
      split at h
      · simp at h
      · rename_i hm
        by_cases hke : k = i
        · subst hke
          rw [hi] at hk
          simp only [Option.some.injEq] at hk
          subst hk
          exact hm
        · exact ih h k d (by omega) hk

theorem lookup_forward_congr : ∀ (tbl tbl1 : List cmd_t) (t : List Char) (i : Nat),
    tbl.map descr = tbl1.map descr → lookup_forward tbl t i = lookup_forward tbl1 t i := by
  intro tbl
  induction tbl with
  | nil =>
    intro tbl1 t i h
    cases tbl1 with
    | nil => rfl
    | cons _ _ => simp at h
  | cons d ds ih =>
    intro tbl1 t i h
    cases tbl1 with
    | nil => simp at h
    | cons d1 ds1 =>
      simp only [List.map_cons, List.cons.injEq, descr, Prod.mk.injEq] at h
      simp only [lookup_forward, h.1.1, h.1.2.1]
      rw [ih ds1 t (i + 1) h.2]

theorem lookup_forward_no_match : ∀ (tbl : List cmd_t) (t : List Char) (i : Nat),
    (∀ d ∈ tbl, t ≠ d.name.toList ∧ t ≠ d.short_name.toList) →
    lookup_forward tbl t i = none := by
  intro tbl
  induction tbl with
  | nil => intro t i _; rfl
  | cons d ds ih =>
    intro t i h
    have hd := h d (List.mem_cons_self _ _)
    simp only [lookup_forward]
    rw [if_neg (fun hc => hc.elim hd.1 hd.2)]
    exact ih t (i + 1) (fun x hx => h x (List.mem_cons_of_mem _ hx))

/-- On the built-in table the scan of the code and the forward scan agree. -/
theorem resolve_eq_forward_builtin (t : List Char) :
    resolve cmd_table t CMD_MAX = lookup_forward cmd_table t 0 := by
  by_cases h : ∃ d ∈ cmd_table, t = d.name.toList ∨ t = d.short_name.toList
  · obtain ⟨d, hmem, ht⟩ := h
    simp only [cmd_table, List.mem_cons, List.mem_singleton, List.not_mem_nil, or_false] at hmem
    rcases hmem with h | h | h | h | h | h | h | h <;> subst h <;>
      rcases ht with ht | ht <;> subst ht <;> decide
  · have hn : ∀ d ∈ cmd_table, t ≠ d.name.toList ∧ t ≠ d.short_name.toList := by
      intro d hd
      constructor
      · intro hc; exact h ⟨d, hd, Or.inl hc⟩
      · intro hc; exact h ⟨d, hd, Or.inr hc⟩
    rw [resolve_no_match cmd_table t hn, lookup_forward_no_match cmd_table t 0 hn]

/-! ## Lemmas on the handlers -/

/-- The text of a help line, conversion by conversion. -/
theorem help_line_eq (d : cmd_t) :
    help_line d =
      List.replicate (20 - d.name.length) ' ' ++ d.name.toList ++ " (".toList ++
        d.short_name.toList ++ ") - ".toList ++ d.doc.toList ++ "\n".toList := by
  simp [help_line, sprintf, format_go, conv_s, Char.isDigit]

theorem help_line_congr (d d1 : cmd_t) (h : descr d = descr d1) :
    help_line d = help_line d1 := by
  simp only [descr, Prod.mk.injEq] at h
  simp only [help_line, h.1, h.2.1, h.2.2.2]

theorem table_eight (tbl : List cmd_t) (h : tbl.length = 8) :
    ∃ a b c d e f g k, tbl = [a, b, c, d, e, f, g, k] := by
  rcases tbl with _ | ⟨a, _ | ⟨b, _ | ⟨c, _ | ⟨d, _ | ⟨e, _ | ⟨f, _ | ⟨g, _ | ⟨k, _ | ⟨m, tl⟩⟩⟩⟩⟩⟩⟩⟩⟩ <;>
    first
    | exact ⟨_, _, _, _, _, _, _, _, rfl⟩
    | (simp only [List.length_cons, List.length_nil] at h; omega)

theorem cmd_help_lines_eq (tbl : List cmd_t) (h : tbl.length = CMD_MAX) :
    cmd_help_lines tbl = sprintf "Available Commands:\n" [] :: tbl.map help_line := by
  obtain ⟨a, b, c, d, e, f, g, k, rfl⟩ := table_eight tbl h
  simp [cmd_help_lines, CMD_MAX, List.range_succ, List.filterMap_cons]

theorem cmd_help_lines_table_ok (st : State) (hst : TableOK st) :
    cmd_help_lines st.cmd_table = cmd_help_lines cmd_table := by
  rw [cmd_help_lines_eq st.cmd_table (table_ok_length st hst), cmd_help_lines_eq cmd_table rfl]
  have h1 : st.cmd_table.map help_line =
      (st.cmd_table.map descr).map (fun p => help_line ⟨p.1, p.2.1, none, p.2.2.1, p.2.2.2⟩) := by
    rw [List.map_map]; rfl
  have h2 : cmd_table.map help_line =
      (cmd_table.map descr).map (fun p => help_line ⟨p.1, p.2.1, none, p.2.2.1, p.2.2.2⟩) := by
    rw [List.map_map]; rfl
  rw [h1, h2, hst]

set_option maxRecDepth 100000 in
/-- Every text that `cmd_help` formats for the built-in table fits in `buffer`. -/
theorem cmd_help_lines_fit :
    (cmd_help_lines cmd_table).all (fun l => decide (l.length < BUFFER_LEN)) = true := by
  decide

set_option maxRecDepth 100000 in
/-- No text that `cmd_help` formats for the built-in table holds a NUL. -/
theorem cmd_help_lines_no_nul : ∀ l ∈ cmd_help_lines cmd_table, '\x00' ∉ l := by
  decide

/-- The handlers that `cli_parser_init` binds. -/
theorem cli_parser_init_handlers (st : State) (i : Nat) (d : cmd_t) (hi : i < CMD_MAX)
    (hd : st.cmd_table[i]? = some d) :
    (cli_parser_init st).cmd_table[i]? =
      some { d with
        cmd_func := some (if i = CMD_HELP then Handler.cmd_help else Handler.cmd_dummy) } := by
  simp only [CMD_MAX] at hi
  simp only [cli_parser_init, cli_set_fifo_stream, set_cmd_func_getElem?]
  interval_cases i <;>
    simp [hd, CMD_SET_INSTANCE, CMD_DIAGNOSTIC_SPN, CMD_FORCE_SPN, CMD_SET_OWN_SPN,
      CMD_FW_UPGRADE, CMD_FW_UPGRADE_FORCE, CMD_FW_UPGRADE_ABORT, CMD_HELP]

theorem table_ok_init (st : State) (hst : TableOK st) : TableOK (cli_parser_init st) :=
  (cli_parser_init_descr st).trans hst

/-- The loop of `cmd_dummy` on a vector of tokens: each remaining token is
appended, with a comma between two of them, provided the text fits. -/
theorem cmd_dummy_loop_tokens (ts : List (List Char)) :
    ∀ (k i : Nat) (buf : List Char), i + k = ts.length →
      (buf ++ [','].intercalate (ts.drop i)).length < BUFFER_LEN →
      cmd_dummy_loop ts.length (ts.map some) k i buf =
        some (buf ++ [','].intercalate (ts.drop i)) := by
  intro k
  induction k with
  | zero =>
    intro i buf hi _
    have : ts.drop i = [] := List.drop_eq_nil_of_le (by omega)
    simp [cmd_dummy_loop, this, List.intercalate]
  | succ k ih =>
    intro i buf hi hlen
    have hlt : i < ts.length := by omega
    have hdrop : ts.drop i = ts[i] :: ts.drop (i + 1) := List.drop_eq_getElem_cons hlt
    have hget : (ts.map some)[i]? = some (some ts[i]) := by
      simp [List.getElem?_eq_getElem hlt]
    simp only [cmd_dummy_loop, hget]
    by_cases hlast : i + 1 < ts.length
    · have hne : ts.drop (i + 1) ≠ [] := by
        intro h0
        have := congrArg List.length h0
        simp at this
        omega
      obtain ⟨b, r, hbr⟩ := List.exists_cons_of_ne_nil hne
      have hj : [','].intercalate (ts.drop i) =
          ts[i] ++ [','] ++ [','].intercalate (ts.drop (i + 1)) := by
        rw [hdrop, hbr]
        simp [List.intercalate]
      rw [hj] at hlen ⊢
      simp only [if_pos hlast]
      have hfit : (buf ++ ts[i] ++ [',']).length < BUFFER_LEN := by
        simp only [List.length_append] at hlen ⊢
        omega
      rw [if_pos hfit, ih (i + 1) (buf ++ ts[i] ++ [',']) (by omega)
        (by simpa [List.append_assoc] using hlen)]
      simp [List.append_assoc]
    · have hnil : ts.drop (i + 1) = [] := List.drop_eq_nil_of_le (by omega)
      have hj : [','].intercalate (ts.drop i) = ts[i] := by
        rw [hdrop, hnil]
        simp [List.intercalate]
      rw [hj] at hlen ⊢
      simp only [if_neg hlast]
      rw [if_pos hlen, ih (i + 1) (buf ++ ts[i]) (by omega) (by simpa [hnil, List.intercalate] using hlen)]
      simp [hnil, List.intercalate]

/-! ## Lemmas on the line buffer -/

theorem c_str_drop_self : ∀ l : List Char, c_str (l.drop (c_str l).length) = [] := by
  intro l
  induction l with
  | nil => rfl
  | cons a l ih =>
    by_cases h : (a != '\x00') = true
    · have h1 : c_str (a :: l) = a :: c_str l := by
        unfold c_str
        exact List.takeWhile_cons_of_pos (p := fun c => c != '\x00') h
      rw [h1]
      simpa using ih
    · have h1 : c_str (a :: l) = [] := by
        unfold c_str
        exact List.takeWhile_cons_of_neg (p := fun c => c != '\x00') h
      rw [h1]
      simpa using h1

theorem c_str_append_tail (r tail : List Char) (hr : ∀ c ∈ r, (c != '\x00') = true)
    (ht : c_str tail = []) : c_str (r ++ tail) = r := by
  unfold c_str at ht ⊢
  rw [List.takeWhile_append_of_pos (p := fun c => c != '\x00') hr, ht, List.append_nil]

theorem c_str_no_nul (l : List Char) : ∀ c ∈ c_str l, (c != '\x00') = true := by
  intro c hc
  exact List.mem_takeWhile_imp (p := fun c => c != '\x00') hc

theorem strtok_mem_none (m : TokMem) (hd : (c_str m.rem).dropWhile is_delim = []) :
    strtok_mem m =
      (none, { done := m.done ++ (c_str m.rem).takeWhile is_delim,
               rem := m.rem.drop (c_str m.rem).length }) := by
  simp only [strtok_mem, hd]

theorem strtok_mem_last (m : TokMem) (c : Char) (cs : List Char)
    (hd : (c_str m.rem).dropWhile is_delim = c :: cs)
    (hq : (c :: cs).dropWhile (fun x => !is_delim x) = []) :
    strtok_mem m =
      (some ((c :: cs).takeWhile (fun x => !is_delim x)),
        { done := m.done ++ (c_str m.rem).takeWhile is_delim ++
            (c :: cs).takeWhile (fun x => !is_delim x),
          rem := m.rem.drop (c_str m.rem).length }) := by
  simp only [strtok_mem, hd, hq]

theorem strtok_mem_cut (m : TokMem) (c y : Char) (cs r : List Char)
    (hd : (c_str m.rem).dropWhile is_delim = c :: cs)
    (hq : (c :: cs).dropWhile (fun x => !is_delim x) = y :: r) :
    strtok_mem m =
      (some ((c :: cs).takeWhile (fun x => !is_delim x)),
        { done := m.done ++ (c_str m.rem).takeWhile is_delim ++
            (c :: cs).takeWhile (fun x => !is_delim x) ++ ['\x00'],
          rem := r ++ m.rem.drop (c_str m.rem).length }) := by
  simp only [strtok_mem, hd, hq]

/-- The call of `strtok` on the buffer returns the token of the functional
`strtok` on the text at the saved position, and leaves the saved position at
the text that the functional `strtok` returns. -/
theorem strtok_mem_agree (m : TokMem) :
    (strtok_mem m).1 = (strtok (c_str m.rem)).1 ∧
    c_str (strtok_mem m).2.rem = (strtok (c_str m.rem)).2 := by
  cases hd : (c_str m.rem).dropWhile is_delim with
  | nil =>
    rw [strtok_mem_none m hd]
    simp only [strtok, hd]
    exact ⟨trivial, c_str_drop_self m.rem⟩
  | cons c cs =>
    cases hq : (c :: cs).dropWhile (fun x => !is_delim x) with
    | nil =>
      rw [strtok_mem_last m c cs hd hq]
      simp only [strtok, hd, hq]
      exact ⟨trivial, by simpa using c_str_drop_self m.rem⟩
    | cons y r =>
      rw [strtok_mem_cut m c y cs r hd hq]
      simp only [strtok, hd, hq]
      refine ⟨trivial, ?_⟩
      simp only [List.drop_succ_cons, List.drop_zero]
      apply c_str_append_tail _ _ _ (c_str_drop_self m.rem)
      intro x hx
      have h1 : x ∈ (c :: cs).dropWhile (fun x => !is_delim x) := by
        rw [hq]; exact List.mem_cons_of_mem _ hx
      have h2 : x ∈ (c_str m.rem).dropWhile is_delim := by
        rw [hd]; exact (List.dropWhile_sublist _).subset h1
      exact c_str_no_nul m.rem x ((List.dropWhile_sublist _).subset h2)

/-- The loop of `args_parse` on the buffer computes the vector that the
functional loop computes on the text at the saved position. -/
theorem args_parse_loop_mem_agree : ∀ (k : Nat) (args : ArgV) (m : TokMem),
    (args_parse_loop_mem k args m).1 = args_parse_loop k args (c_str m.rem) := by
  intro k
  induction k with
  | zero => intro args m; rfl
  | succ k ih =>
    intro args m
    have h := strtok_mem_agree m
    simp only [args_parse_loop_mem, args_parse_loop, h.1]
    cases hh : (args ++ [(strtok (c_str m.rem)).1]).headD none with
    | none => rfl
    | some a =>
      simp only
      rw [ih, h.2]

theorem strtok_mem_done (m : TokMem) : ∃ x, (strtok_mem m).2.done = m.done ++ x := by
  cases hd : (c_str m.rem).dropWhile is_delim with
  | nil => rw [strtok_mem_none m hd]; exact ⟨_, rfl⟩
  | cons c cs =>
    cases hq : (c :: cs).dropWhile (fun x => !is_delim x) with
    | nil => rw [strtok_mem_last m c cs hd hq]; exact ⟨_, by simp only [List.append_assoc]; rfl⟩
    | cons y r => rw [strtok_mem_cut m c y cs r hd hq]; exact ⟨_, by simp only [List.append_assoc]; rfl⟩

theorem args_parse_loop_mem_done : ∀ (k : Nat) (args : ArgV) (m : TokMem),
    ∃ x, (args_parse_loop_mem k args m).2.done = m.done ++ x := by
  intro k
  induction k with
  | zero => intro args m; exact ⟨[], by simp [args_parse_loop_mem]⟩
  | succ k ih =>
    intro args m
    obtain ⟨x, hx⟩ := strtok_mem_done m
    simp only [args_parse_loop_mem]
    cases (args ++ [(strtok_mem m).1]).headD none with
    | none => exact ⟨x, hx⟩
    | some a =>
      obtain ⟨y, hy⟩ := ih (args ++ [(strtok_mem m).1]) (strtok_mem m).2
      exact ⟨x ++ y, by simp only [hy, hx, List.append_assoc]⟩

/-- The buffer that `cli_parse` leaves starts with what its first call of
`strtok` left before the saved position. -/
theorem cli_parse_buffer_prefix (st : State) (cmd : List Char) :
    ∃ y, cli_parse_buffer st cmd = (strtok_mem { done := [], rem := cmd }).2.done ++ y := by
  unfold cli_parse_buffer
  simp only
  cases (strtok_mem { done := [], rem := cmd }).1 with
  | none => exact ⟨_, rfl⟩
  | some tok =>
    simp only
    split
    · obtain ⟨x, hx⟩ := strtok_mem_done (strtok_mem { done := [], rem := cmd }).2
      cases (strtok_mem (strtok_mem { done := [], rem := cmd }).2).1 with
      | none => exact ⟨_, by simp only [hx, List.append_assoc]; rfl⟩
      | some t =>
        simp only
        cases resolve st.cmd_table t CMD_MAX with
        | none => exact ⟨_, by simp only [hx, List.append_assoc]; rfl⟩
        | some j =>
          simp only
          cases st.cmd_table[j]? with
          | none => exact ⟨_, by simp only [hx, List.append_assoc]; rfl⟩
          | some cur =>
            simp only
            obtain ⟨y, hy⟩ := args_parse_loop_mem_done cur.argc []
              (strtok_mem (strtok_mem { done := [], rem := cmd }).2).2
            exact ⟨_, by simp only [hy, hx, List.append_assoc]; rfl⟩
    · exact ⟨_, rfl⟩

theorem runs_sep_prefix (p : Char → Bool) : ∀ (l : List Char), (∀ c ∈ l, p c = true) →
    ∀ x : List Char, runs p (l ++ x) = runs p x := by
  intro l
  induction l with
  | nil => intro _ x; rfl
  | cons c l ih =>
    intro hl x
    rw [List.cons_append, runs_cons_sep p c _ (hl c (by simp))]
    exact ih (fun y hy => hl y (List.mem_cons_of_mem _ hy)) x

/-- When the line has a second token, the first call of `strtok` has written a
NUL right behind the first token, so the buffer that `cli_parse` leaves has the
first token as its only token. -/
theorem tokens_cli_parse_buffer (st : State) (line t0 t : List Char)
    (rest : List (List Char)) (hl : tokens line = t0 :: t :: rest) :
    tokens (cli_parse_buffer st line) = [t0] := by
  unfold tokens at hl
  obtain ⟨y, hy⟩ := cli_parse_buffer_prefix st line
  have hm : (⟨[], line⟩ : TokMem).rem = line := rfl
  rcases strtok_cases (c_str line) with ⟨_, hb⟩ | ⟨t1, r, ha, hb⟩
  · rw [hb] at hl; simp at hl
  · rw [hb] at hl
    simp only [List.cons.injEq] at hl
    obtain ⟨h1, h2⟩ := hl
    subst h1
    obtain ⟨hne, hnd, _⟩ := strtok_some_shape ha
    cases hd : (c_str line).dropWhile is_delim with
    | nil => simp [strtok, hd] at ha
    | cons c cs =>
      simp only [strtok, hd, Prod.mk.injEq, Option.some.injEq] at ha
      cases hq : (c :: cs).dropWhile (fun x => !is_delim x) with
      | nil =>
        rw [hq] at ha
        rw [← ha.2] at h2
        simp [toks_nil] at h2
      | cons z r1 =>
        have hcut := strtok_mem_cut ⟨[], line⟩ c z cs r1 hd hq
        rw [hcut] at hy
        simp only [ha.1, List.nil_append] at hy
        have hnul : ∀ x ∈ (c_str line).takeWhile is_delim ++ t1, (x != '\x00') = true := by
          intro x hx
          rcases List.mem_append.mp hx with hx | hx
          · exact c_str_no_nul line x ((List.takeWhile_sublist _).subset hx)
          · have h3 : x ∈ (c :: cs) := by
              rw [← ha.1] at hx
              exact (List.takeWhile_sublist _).subset hx
            rw [← hd] at h3
            exact c_str_no_nul line x ((List.dropWhile_sublist _).subset h3)
        have hc : c_str (cli_parse_buffer st line) = (c_str line).takeWhile is_delim ++ t1 := by
          rw [hy, List.append_assoc]
          exact c_str_append_tail _ _ hnul rfl
        unfold tokens
        rw [hc, toks_eq_runs,
          runs_sep_prefix is_delim _ (fun x hx => List.mem_takeWhile_imp hx) t1]
        have hr := runs_first is_delim t1 [] [] hne hnd (by simp) (by simp) (fun _ => rfl)
        simpa [runs_nil] using hr

/-! ## The claims -/

/-- C1 (argument underflow), evaluated on the code: after `cli_parser_init`,
the line `vboard -i 10,200` gives `set_instance` two of its three arguments,
yet `cli_parse` prints nothing and calls the bound handler with count 3 and the
vector `10`, `200`, NULL, because `args_parse` tests `args[0]` in every
iteration instead of the slot it has just written. -/
theorem args_underflow_calls_handler :
    (cli_parse (cli_parser_init initial) "vboard -i 10,200".toList).out =
      [Event.call Handler.cmd_dummy 3 [some "10".toList, some "200".toList, none]] := by
  decide

/-- C2 (successful dispatch): in a registry that holds the built-in
descriptors, a line whose tokens are `vboard`, the name or the alias of the
descriptor `d` at index `c`, and at least `d.argc` further tokens makes
`cli_parse` produce exactly one event, the call of the handler bound to `d`
with count `d.argc` and the first `d.argc` further tokens in order; nothing is
printed and the table is left as it was. -/
theorem cli_parse_dispatches (st : State) (c : Nat) (d : cmd_t) (f : Handler)
    (line t : List Char) (rest : List (List Char))
    (hst : TableOK st) (hd : st.cmd_table[c]? = some d) (hf : d.cmd_func = some f)
    (ht : t = d.name.toList ∨ t = d.short_name.toList)
    (hl : tokens line = vboard_str :: t :: rest) (hn : d.argc ≤ rest.length) :
    (cli_parse st line).out = [Event.call f d.argc ((rest.take d.argc).map some)] ∧
    (cli_parse st line).state.cmd_table = st.cmd_table := by
  rw [cli_parse_known_enough st hst c d f hd hf line t rest ht hl hn]
  exact ⟨rfl, rfl⟩

/-- Witness of C2: `vboard -i 10,200,0` after `cli_parser_init` calls the
placeholder bound to `set_instance` with count 3 and `10`, `200`, `0`. -/
theorem cli_parse_dispatches_witness :
    (cli_parse (cli_parser_init initial) "vboard -i 10,200,0".toList).out =
      [Event.call Handler.cmd_dummy 3
        [some "10".toList, some "200".toList, some "0".toList]] ∧
    (cli_parse (cli_parser_init initial) "vboard -i 10,200,0".toList).state.cmd_table =
      (cli_parser_init initial).cmd_table :=
  cli_parse_dispatches (cli_parser_init initial) 0
    ((cli_parser_init initial).cmd_table.headD ⟨"", "", none, 0, ""⟩) Handler.cmd_dummy
    "vboard -i 10,200,0".toList "-i".toList ["10".toList, "200".toList, "0".toList]
    rfl rfl rfl (Or.inr rfl) (by decide) (by decide)

/-- C3 (out-of-range rebinding), evaluated on the code: with the negative id
`-1` and a non-null handler the guard `cmd >= CMD_MAX || NULL == func` is
passed, so `cli_set_cmd_cb` does not return failure: it goes on to the store
through `cmd_table[-1]`, outside the table. -/
theorem cli_set_cmd_cb_negative_id :
    cli_set_cmd_cb (cli_parser_init initial) (-1) (some (Handler.user 0)) =
      SetCb.out_of_bounds (-1) := by
  decide

/-- C4 (binding with a valid id): for an id `c` with `0 ≤ c < CMD_MAX`,
`cli_set_cmd_cb` returns, and it returns 0 exactly when the handler is not
NULL.  With a NULL handler it returns 1 and the state is unchanged.  With a
handler `f` the table keeps its length, the descriptor at index `c` differs
from the old one in `cmd_func` only, which is `f`, every other descriptor is
the old one, and `args_vector` and `fifo_name` are unchanged. -/
theorem cli_set_cmd_cb_valid_id (st : State) (c : Int) (f : Option Handler)
    (h0 : 0 ≤ c) (h1 : c < (CMD_MAX : Int)) :
    ∃ code st1, cli_set_cmd_cb st c f = SetCb.ret code st1 ∧
      (code = 0 ↔ f ≠ none) ∧
      (f = none → code = 1 ∧ st1 = st) ∧
      (f ≠ none →
        st1.cmd_table.length = st.cmd_table.length ∧
        (∀ j d, st.cmd_table[j]? = some d →
          st1.cmd_table[j]? = some (if j = c.toNat then { d with cmd_func := f } else d)) ∧
        st1.args_vector = st.args_vector ∧ st1.fifo_name = st.fifo_name) := by
  cases f with
  | none =>
    refine ⟨EXIT_FAILURE, st, by simp [cli_set_cmd_cb], ?_, ?_, ?_⟩
    · simp [EXIT_FAILURE]
    · intro _; exact ⟨rfl, rfl⟩
    · intro h; exact absurd rfl h
  | some g =>
    refine ⟨EXIT_SUCCESS, { st with cmd_table := set_cmd_func st.cmd_table c.toNat (some g) },
      ?_, ?_, ?_, ?_⟩
    · have hg : ¬ (c ≥ (CMD_MAX : Int) ∨ some g = none) := by
        rintro (h | h)
        · omega
        · simp at h
      simp only [cli_set_cmd_cb, if_neg hg, if_pos h0]
    · simp [EXIT_SUCCESS]
    · intro h; simp at h
    · intro _
      refine ⟨set_cmd_func_length _ _ _, ?_, rfl, rfl⟩
      intro j d hj
      simp only [set_cmd_func_getElem?, hj]
      split <;> rfl

/-- Witness of C4: binding a handler to `CMD_FORCE_SPN` after `cli_parser_init`. -/
theorem cli_set_cmd_cb_valid_id_witness :
    ∃ code st1, cli_set_cmd_cb (cli_parser_init initial) 2 (some (Handler.user 1)) =
        SetCb.ret code st1 ∧
      (code = 0 ↔ some (Handler.user 1) ≠ none) ∧
      (some (Handler.user 1) = none → code = 1 ∧ st1 = cli_parser_init initial) ∧
      (some (Handler.user 1) ≠ none →
        st1.cmd_table.length = (cli_parser_init initial).cmd_table.length ∧
        (∀ j d, (cli_parser_init initial).cmd_table[j]? = some d →
          st1.cmd_table[j]? =
            some (if j = (2 : Int).toNat then { d with cmd_func := some (Handler.user 1) }
              else d)) ∧
        st1.args_vector = (cli_parser_init initial).args_vector ∧
        st1.fifo_name = (cli_parser_init initial).fifo_name) :=
  cli_set_cmd_cb_valid_id (cli_parser_init initial) 2 (some (Handler.user 1))
    (by decide) (by decide)

/-- C5 (rebind then dispatch): in a registry that holds the built-in
descriptors, `cli_set_cmd_cb` with a valid id `c` and a handler `f` succeeds,
and in the state it leaves: a line `vboard <name or alias of c>` with at least
`argc` further tokens produces exactly one event, the call of `f` with the
arity of `c` and the first `argc` further tokens (so no call of the handler
bound before); and such a line for any other command `j`, bound to `g` before
the rebinding, still produces exactly the call of `g`. -/
theorem rebind_then_dispatch (st : State) (c : Int) (f : Handler)
    (hst : TableOK st) (h0 : 0 ≤ c) (h1 : c < (CMD_MAX : Int)) :
    ∃ st1, cli_set_cmd_cb st c (some f) = SetCb.ret EXIT_SUCCESS st1 ∧
      (∀ (d : cmd_t) (line t : List Char) (rest : List (List Char)),
        st.cmd_table[c.toNat]? = some d →
        (t = d.name.toList ∨ t = d.short_name.toList) →
        tokens line = vboard_str :: t :: rest → d.argc ≤ rest.length →
        (cli_parse st1 line).out =
          [Event.call f d.argc ((rest.take d.argc).map some)]) ∧
      (∀ (j : Nat) (d : cmd_t) (g : Handler) (line t : List Char)
          (rest : List (List Char)),
        j ≠ c.toNat → st.cmd_table[j]? = some d → d.cmd_func = some g →
        (t = d.name.toList ∨ t = d.short_name.toList) →
        tokens line = vboard_str :: t :: rest → d.argc ≤ rest.length →
        (cli_parse st1 line).out =
          [Event.call g d.argc ((rest.take d.argc).map some)]) := by
  have hg : ¬ (c ≥ (CMD_MAX : Int) ∨ some f = none) := by
    rintro (h | h)
    · omega
    · simp at h
  have hok : TableOK { st with cmd_table := set_cmd_func st.cmd_table c.toNat (some f) } := by
    unfold TableOK
    simp only [set_cmd_func_descr]
    exact hst
  refine ⟨{ st with cmd_table := set_cmd_func st.cmd_table c.toNat (some f) }, ?_, ?_, ?_⟩
  · simp only [cli_set_cmd_cb, if_neg hg, if_pos h0]
  · intro d line t rest hd ht hl hn
    have hd1 : ({ st with cmd_table := set_cmd_func st.cmd_table c.toNat (some f) } :
        State).cmd_table[c.toNat]? = some { d with cmd_func := some f } := by
      simp only [set_cmd_func_getElem?, hd, if_true, Option.map_some']
    rw [cli_parse_known_enough _ hok c.toNat _ f hd1 rfl line t rest ht hl hn]
  · intro j d g line t rest hj hd hf ht hl hn
    have hd1 : ({ st with cmd_table := set_cmd_func st.cmd_table c.toNat (some f) } :
        State).cmd_table[j]? = some d := by
      simp only [set_cmd_func_getElem?, if_neg hj, hd]
    rw [cli_parse_known_enough _ hok j d g hd1 hf line t rest ht hl hn]

/-- Witness of C5: after `cli_parser_init`, `CMD_SET_INSTANCE` is rebound. -/
theorem rebind_then_dispatch_witness :
    ∃ st1, cli_set_cmd_cb (cli_parser_init initial) 0 (some (Handler.user 7)) =
        SetCb.ret EXIT_SUCCESS st1 ∧
      (∀ (d : cmd_t) (line t : List Char) (rest : List (List Char)),
        (cli_parser_init initial).cmd_table[(0 : Int).toNat]? = some d →
        (t = d.name.toList ∨ t = d.short_name.toList) →
        tokens line = vboard_str :: t :: rest → d.argc ≤ rest.length →
        (cli_parse st1 line).out =
          [Event.call (Handler.user 7) d.argc ((rest.take d.argc).map some)]) ∧
      (∀ (j : Nat) (d : cmd_t) (g : Handler) (line t : List Char)
          (rest : List (List Char)),
        j ≠ (0 : Int).toNat → (cli_parser_init initial).cmd_table[j]? = some d →
        d.cmd_func = some g →
        (t = d.name.toList ∨ t = d.short_name.toList) →
        tokens line = vboard_str :: t :: rest → d.argc ≤ rest.length →
        (cli_parse st1 line).out =
          [Event.call g d.argc ((rest.take d.argc).map some)]) :=
  rebind_then_dispatch (cli_parser_init initial) 0 (Handler.user 7) rfl
    (by decide) (by decide)

/-- C6 (wrong program name): when the line has a first token and that token is
not `vboard`, `cli_parse` prints `Command Not Found` and nothing else, calls no
handler, and leaves the whole state, the table included, as it was. -/
theorem wrong_program_name (st : State) (line t : List Char) (rest : List (List Char))
    (hl : tokens line = t :: rest) (ht : t ≠ vboard_str) :
    cli_parse st line = { state := st, out := [Event.puts "Command Not Found"] } :=
  cli_parse_other_program st line t rest hl ht

/-- Witness of C6: the line `Vboard -h`. -/
theorem wrong_program_name_witness :
    cli_parse (cli_parser_init initial) "Vboard -h".toList =
      { state := cli_parser_init initial, out := [Event.puts "Command Not Found"] } :=
  wrong_program_name (cli_parser_init initial) "Vboard -h".toList "Vboard".toList
    ["-h".toList] (by decide) (by decide)

/-- C7 (unknown or missing command): when the first token is `vboard` and
either there is no second token, or the second token is neither the name nor
the short name of any descriptor of the table, `cli_parse` prints
`Command Not Found` and nothing else, calls no handler and leaves the state as
it was. -/
theorem unknown_or_missing_command (st : State) (line : List Char)
    (rest : List (List Char)) (hl : tokens line = vboard_str :: rest)
    (h : rest = [] ∨ ∃ t r, rest = t :: r ∧
      ∀ d ∈ st.cmd_table, t ≠ d.name.toList ∧ t ≠ d.short_name.toList) :
    cli_parse st line = { state := st, out := [Event.puts "Command Not Found"] } := by
  rcases h with h | ⟨t, r, h, hn⟩
  · subst h; exact cli_parse_no_command st line hl
  · subst h; exact cli_parse_unknown st line t r hl hn

/-- Witness of C7: the line `vboard -x 1,2`, whose command token is unknown. -/
theorem unknown_or_missing_command_witness :
    cli_parse (cli_parser_init initial) "vboard -x 1,2".toList =
      { state := cli_parser_init initial, out := [Event.puts "Command Not Found"] } :=
  unknown_or_missing_command (cli_parser_init initial) "vboard -x 1,2".toList
    ["-x".toList, "1".toList, "2".toList] (by decide)
    (Or.inr ⟨"-x".toList, ["1".toList, "2".toList], rfl, by decide⟩)

/-- C8 (empty input): when the line has no token, in particular when all its
characters are delimiters or it is empty, `cli_parse` prints nothing, calls no
handler and leaves the whole state as it was. -/
theorem empty_input (st : State) (line : List Char)
    (h : tokens line = [] ∨ ∀ c ∈ c_str line, is_delim c = true) :
    cli_parse st line = { state := st, out := [] } := by
  rcases h with h | h
  · exact cli_parse_no_token st line h
  · exact cli_parse_no_token st line (tokens_only_delims line h)

/-- Witness of C8: a line made of a space, a comma and a newline. -/
theorem empty_input_witness :
    cli_parse (cli_parser_init initial) " ,\n".toList =
      { state := cli_parser_init initial, out := [] } :=
  empty_input (cli_parser_init initial) " ,\n".toList (Or.inr (by decide))

/-- C9 (name/alias agreement): in a registry that holds the built-in
descriptors, for every command id `c` below `CMD_MAX` the scan of the
dispatcher resolves the name of the descriptor at index `c` to `c` and its
short name to `c`; and two lines `vboard <name> ...` and `vboard <alias> ...`
with the same further tokens are dispatched with the same result. -/
theorem name_alias_agree (st : State) (c : Nat) (hst : TableOK st) (hc : c < CMD_MAX) :
    ∃ d, st.cmd_table[c]? = some d ∧
      resolve st.cmd_table d.name.toList CMD_MAX = some c ∧
      resolve st.cmd_table d.short_name.toList CMD_MAX = some c ∧
      ∀ (l1 l2 : List Char) (rest : List (List Char)),
        tokens l1 = vboard_str :: d.name.toList :: rest →
        tokens l2 = vboard_str :: d.short_name.toList :: rest →
        cli_parse st l1 = cli_parse st l2 := by
  have hlen : st.cmd_table.length = 8 := by
    have h := congrArg List.length hst
    simpa [cmd_table] using h
  have hlt : c < st.cmd_table.length := by rw [hlen]; exact hc
  refine ⟨st.cmd_table[c], List.getElem?_eq_getElem hlt, ?_⟩
  have hd := List.getElem?_eq_getElem hlt
  have hr := resolve_table_ok st hst c _ hd
  refine ⟨hr.1, hr.2, ?_⟩
  intro l1 l2 rest h1 h2
  obtain ⟨s1, hs1, hp1⟩ := cli_parse_known st hst c _ hd l1 _ rest (Or.inl rfl) h1
  obtain ⟨s2, hs2, hp2⟩ := cli_parse_known st hst c _ hd l2 _ rest (Or.inr rfl) h2
  rw [hp1, hp2]
  exact cli_parse_match_toks st _ s1 s2 (by rw [hs1, hs2])

/-- Witness of C9: the command `set_instance` after `cli_parser_init`. -/
theorem name_alias_agree_witness :
    ∃ d, (cli_parser_init initial).cmd_table[0]? = some d ∧
      resolve (cli_parser_init initial).cmd_table d.name.toList CMD_MAX = some 0 ∧
      resolve (cli_parser_init initial).cmd_table d.short_name.toList CMD_MAX = some 0 ∧
      ∀ (l1 l2 : List Char) (rest : List (List Char)),
        tokens l1 = vboard_str :: d.name.toList :: rest →
        tokens l2 = vboard_str :: d.short_name.toList :: rest →
        cli_parse (cli_parser_init initial) l1 = cli_parse (cli_parser_init initial) l2 :=
  name_alias_agree (cli_parser_init initial) 0 rfl (by decide)

/-- C10 (built-in command surface): `CMD_MAX` is 8, the enumerators run from
`CMD_SET_INSTANCE = 0` to `CMD_HELP = 7`, the table of the initial state is the
static table, it has `CMD_MAX` descriptors whose name, short name and arity
are, in index order, the eight listed triples, and every arity is at most 4. -/
theorem builtin_command_surface :
    CMD_MAX = 8 ∧
    [CMD_SET_INSTANCE, CMD_DIAGNOSTIC_SPN, CMD_FORCE_SPN, CMD_SET_OWN_SPN, CMD_FW_UPGRADE,
      CMD_FW_UPGRADE_FORCE, CMD_FW_UPGRADE_ABORT, CMD_HELP] = List.range CMD_MAX ∧
    initial.cmd_table = cmd_table ∧
    cmd_table.length = CMD_MAX ∧
    cmd_table.map (fun d => (d.name, d.short_name, d.argc)) =
      [("set_instance", "-i", 3), ("diag_spn", "-d", 4), ("force_spn", "-f", 4),
       ("set_own_spn", "-s", 3), ("fw_upgrade", "-fw", 2), ("fw_upgrade_force", "-fwf", 2),
       ("fw_upgrade_abort", "-fwa", 0), ("help", "-h", 0)] ∧
    ∀ d ∈ cmd_table, 0 ≤ d.argc ∧ d.argc ≤ 4 := by
  refine ⟨rfl, rfl, rfl, rfl, rfl, ?_⟩
  decide

/-- C11 (delimiter set), counterexample: on the line `vboard -fw a;b 7` the
tokenizer of the code returns `a` and `b` as two tokens, while the maximal runs
outside the five characters space, newline, comma, `(` and `)` keep `a;b` as
one token: the two token sequences differ. -/
theorem semicolon_separates_tokens :
    tokens "vboard -fw a;b 7".toList =
      ["vboard".toList, "-fw".toList, "a".toList, "b".toList, "7".toList] ∧
    spec_tokens "vboard -fw a;b 7".toList =
      ["vboard".toList, "-fw".toList, "a;b".toList, "7".toList] ∧
    tokens "vboard -fw a;b 7".toList ≠ spec_tokens "vboard -fw a;b 7".toList := by
  decide

/-- C11 (delimiter set), amended: the delimiters of the code are exactly the
six characters space, newline, `(`, comma, `)` and `;`, and for every line the
token sequence is the sequence of maximal non-empty runs of characters that are
none of these six. -/
theorem tokens_eq_runs (line : List Char) :
    tokens line = runs is_delim (c_str line) ∧
    ∀ c : Char, is_delim c = true ↔ c ∈ [' ', '\n', '(', ',', ')', ';'] := by
  refine ⟨toks_eq_runs (c_str line), ?_⟩
  intro c
  simp [is_delim, delim]

/-- C15 (token well-formedness): for every line, every token is non-empty, has
no delimiter character of the code, and is a contiguous part of the line; the
tokens lie in the line one after the other from left to right; and call number
`i` of `strtok` returns token number `i`, and NULL from the first call after the
last token on, for ever. -/
theorem token_stream_wellformed (line : List Char) :
    (∀ t ∈ tokens line, t ≠ [] ∧ (∀ c ∈ t, is_delim c = false) ∧ t <:+: line) ∧
    InOrder (tokens line) (c_str line) ∧
    (∀ i, (strtok_n i (c_str line)).1 = (tokens line)[i]?) ∧
    (∀ i, (tokens line).length ≤ i → (strtok_n i (c_str line)).1 = none) := by
  have h := toks_wellformed (c_str line)
  have hp : c_str line <:+: line := (List.takeWhile_prefix _).isInfix
  refine ⟨?_, h.2, fun i => strtok_n_toks i (c_str line), ?_⟩
  · intro t ht
    obtain ⟨h1, h2, h3⟩ := h.1 t ht
    exact ⟨h1, h2, h3.trans hp⟩
  · intro i hi
    rw [strtok_n_toks]
    exact List.getElem?_eq_none hi

/-- C19 (exact condition for `Bad Argument(s)`): on the text `s` that follows
the command token, `args_parse n` returns NULL exactly when `n ≥ 1` and no
token remains, and it prints `Bad Argument(s)` exactly then; with `n = 0` it
returns the empty vector; with `n ≥ 1` and between 1 and `n - 1` tokens left it
returns a vector of length `n`, the tokens first and NULL in the other slots,
and `cli_parse` then calls the bound handler with count `n` and that vector. -/
theorem bad_arguments_condition (n : Nat) (s : List Char) :
    ((args_parse n s).1 = none ↔ 1 ≤ n ∧ toks s = []) ∧
    ((args_parse n s).2 = [Event.puts "Bad Argument(s)"] ↔ 1 ≤ n ∧ toks s = []) ∧
    (¬ (1 ≤ n ∧ toks s = []) → (args_parse n s).2 = []) ∧
    args_parse 0 s = (some [], []) ∧
    (1 ≤ (toks s).length → (toks s).length < n →
      args_parse n s =
        (some ((toks s).map some ++ List.replicate (n - (toks s).length) none), []) ∧
      ((toks s).map some ++ List.replicate (n - (toks s).length) none).length = n) ∧
    (∀ (st : State) (c : Nat) (d : cmd_t) (f : Handler) (line t : List Char)
        (rest : List (List Char)),
      TableOK st → st.cmd_table[c]? = some d → d.cmd_func = some f →
      (t = d.name.toList ∨ t = d.short_name.toList) →
      tokens line = vboard_str :: t :: rest → 1 ≤ rest.length → rest.length < d.argc →
      (cli_parse st line).out =
        [Event.call f d.argc (rest.map some ++ List.replicate (d.argc - rest.length) none)]) := by
  have hx := args_parse_exact n s
  refine ⟨?_, ?_, ?_, ?_, ?_, ?_⟩
  · rw [hx]; split <;> simp_all
  · rw [hx]; split <;> simp_all
  · intro h; rw [hx, if_neg h]
  · simp [args_parse, args_parse_loop]
  · intro h1 h2
    have hne : ¬ (1 ≤ n ∧ toks s = []) := by
      rintro ⟨_, h0⟩
      rw [h0] at h1
      simp at h1
    rw [hx, if_neg hne, List.take_of_length_le (Nat.le_of_lt h2)]
    refine ⟨rfl, ?_⟩
    simp only [List.length_append, List.length_map, List.length_replicate]
    omega
  · intro st c d f line t rest hst hd hf ht hl h1 h2
    obtain ⟨s1, hs1, hp⟩ := cli_parse_known st hst c d hd line t rest ht hl
    have hne : ¬ (1 ≤ d.argc ∧ toks s1 = []) := by
      rintro ⟨_, h0⟩
      rw [hs1] at h0
      rw [h0] at h1
      simp at h1
    rw [hp]
    unfold cli_parse_match
    rw [args_parse_exact, if_neg hne, hs1, List.take_of_length_le (Nat.le_of_lt h2)]
    simp [hf]

/-- Witness of C19: with arity 3 and the two tokens `10` and `200` left,
`args_parse` prints nothing and returns the vector `10`, `200`, NULL. -/
theorem bad_arguments_condition_witness :
    args_parse 3 "10,200".toList =
      (some ((toks "10,200".toList).map some ++
        List.replicate (3 - (toks "10,200".toList).length) none), []) ∧
    ((toks "10,200".toList).map some ++
      List.replicate (3 - (toks "10,200".toList).length) none).length = 3 :=
  (bad_arguments_condition 3 "10,200".toList).2.2.2.2.1 (by decide) (by decide)

/-- C20 (unbound handler): for a line `vboard <t> ...` whose command token is
the name or the short name of a built-in descriptor `d`: in the initial
registry, where every handler is NULL, when `args_parse` accepts the arguments
(arity 0, or at least one further token) `cli_parse` produces no event at all
and leaves the table as it was; and in every registry that holds the built-in
descriptors, whatever the handlers and the arguments, `Command Not Found` is not
printed. -/
theorem unbound_handler_silent (c : Nat) (d : cmd_t) (line t : List Char)
    (rest : List (List Char)) (hd : cmd_table[c]? = some d)
    (ht : t = d.name.toList ∨ t = d.short_name.toList)
    (hl : tokens line = vboard_str :: t :: rest) :
    ((d.argc = 0 ∨ rest ≠ []) →
      (cli_parse initial line).out = [] ∧
      (cli_parse initial line).state.cmd_table = initial.cmd_table) ∧
    (∀ st : State, TableOK st →
      Event.puts "Command Not Found" ∉ (cli_parse st line).out) := by
  refine ⟨?_, ?_⟩
  · intro hacc
    have hd0 : initial.cmd_table[c]? = some d := hd
    have hnone : d.cmd_func = none := by
      have hall : ∀ x ∈ cmd_table, x.cmd_func = none := by decide
      exact hall d (List.getElem?_mem hd)
    obtain ⟨s1, hs1, hp⟩ := cli_parse_known initial table_ok_initial c d hd0 line t rest ht hl
    have hne : ¬ (1 ≤ d.argc ∧ toks s1 = []) := by
      rintro ⟨h1, h0⟩
      rw [hs1] at h0
      rcases hacc with h | h
      · omega
      · exact h h0
    rw [hp]
    unfold cli_parse_match
    rw [args_parse_exact, if_neg hne]
    simp [hnone]
  · intro st hst
    obtain ⟨d1, hd1, hdd⟩ := table_ok_entry st hst c d hd
    simp only [descr, Prod.mk.injEq] at hdd
    have ht1 : t = d1.name.toList ∨ t = d1.short_name.toList := by
      rw [hdd.1, hdd.2.1]; exact ht
    obtain ⟨s1, _, hp⟩ := cli_parse_known st hst c d1 hd1 line t rest ht1 hl
    rw [hp]
    unfold cli_parse_match
    rw [args_parse_exact]
    split
    · simp
    · cases d1.cmd_func <;> simp

/-- Witness of C20: the line `vboard help` in the initial registry. -/
theorem unbound_handler_silent_witness :
    (((cmd_table.getD 7 ⟨"", "", none, 0, ""⟩).argc = 0 ∨ ([] : List (List Char)) ≠ []) →
      (cli_parse initial "vboard help".toList).out = [] ∧
      (cli_parse initial "vboard help".toList).state.cmd_table = initial.cmd_table) ∧
    (∀ st : State, TableOK st →
      Event.puts "Command Not Found" ∉ (cli_parse st "vboard help".toList).out) :=
  unbound_handler_silent 7 (cmd_table.getD 7 ⟨"", "", none, 0, ""⟩) "vboard help".toList
    "help".toList [] rfl (Or.inl rfl) (by decide)

/-- C16 (registry invariant): in every state reached from the initial one by
calls of `cli_parser_init`, `cli_set_cmd_cb` with a valid id, `cli_parse` (and
`cli_set_fifo_stream`), the table has `CMD_MAX` descriptors, their names, short
names, arities and help texts are those of the static table, and the 16 names
and short names are pairwise distinct; and none of these functions changes the
name, short name, arity or help text of any descriptor, in any state. -/
theorem registry_invariant (st : State) (h : Reachable st) :
    st.cmd_table.length = CMD_MAX ∧
    st.cmd_table.map descr = cmd_table.map descr ∧
    (st.cmd_table.map (fun d => d.name) ++
      st.cmd_table.map (fun d => d.short_name)).length = 16 ∧
    (st.cmd_table.map (fun d => d.name) ++ st.cmd_table.map (fun d => d.short_name)).Nodup ∧
    (∀ s0 : State, (cli_parser_init s0).cmd_table.map descr = s0.cmd_table.map descr) ∧
    (∀ (s0 s1 : State) (c : Int) (f : Option Handler) (code : Int),
      cli_set_cmd_cb s0 c f = SetCb.ret code s1 →
      s1.cmd_table.map descr = s0.cmd_table.map descr) ∧
    (∀ (s0 : State) (line : List Char), (cli_parse s0 line).state.cmd_table = s0.cmd_table) := by
  have hst : TableOK st := reachable_table_ok st h
  have hn : st.cmd_table.map (fun d => d.name) = (st.cmd_table.map descr).map (fun p => p.1) := by
    rw [List.map_map]; rfl
  have ha : st.cmd_table.map (fun d => d.short_name) =
      (st.cmd_table.map descr).map (fun p => p.2.1) := by
    rw [List.map_map]; rfl
  refine ⟨table_ok_length st hst, hst, ?_, ?_, cli_parser_init_descr, cli_set_cmd_cb_descr,
    fun s0 line => (cli_parse_table s0 line).1⟩
  · rw [hn, ha, hst]; rfl
  · rw [hn, ha, hst]; decide

/-- Witness of C16: the state after `cli_parser_init`, a rebinding of
`CMD_FORCE_SPN` and the dispatch of `vboard -f 1,2,3,4`. -/
theorem registry_invariant_witness :
    (cli_parse { cli_parser_init initial with
        cmd_table := set_cmd_func (cli_parser_init initial).cmd_table 2
          (some (Handler.user 1)) } "vboard -f 1,2,3,4".toList).state.cmd_table.length
      = CMD_MAX :=
  (registry_invariant _
    (Reachable.parse _ "vboard -f 1,2,3,4".toList
      (Reachable.set_cmd_cb (cli_parser_init initial) _ 2 (some (Handler.user 1)) EXIT_SUCCESS
        (Reachable.init initial Reachable.start) (by decide) (by decide) rfl))).1

/-- C17 (scan order): the scan of the dispatcher returns the highest index
below its starting counter whose descriptor has the token as name or short
name, and nothing when there is none; and in a registry that holds the built-in
descriptors this scan and the scan from the lowest index upwards select the same
index, or both select none, for every token. -/
theorem scan_order (tbl : List cmd_t) (t : List Char) (i : Nat) :
    (∀ j, resolve tbl t i = some j →
      j < i ∧ (∃ d, tbl[j]? = some d ∧ (t = d.name.toList ∨ t = d.short_name.toList)) ∧
      ∀ k d, j < k → k < i → tbl[k]? = some d →
        ¬ (t = d.name.toList ∨ t = d.short_name.toList)) ∧
    (resolve tbl t i = none →
      ∀ k d, k < i → tbl[k]? = some d →
        ¬ (t = d.name.toList ∨ t = d.short_name.toList)) ∧
    (∀ st : State, TableOK st →
      resolve st.cmd_table t CMD_MAX = lookup_forward st.cmd_table t 0) := by
  refine ⟨resolve_some tbl t i, resolve_none tbl t i, ?_⟩
  intro st hst
  rw [resolve_congr st.cmd_table cmd_table t hst, lookup_forward_congr st.cmd_table cmd_table t 0 hst]
  exact resolve_eq_forward_builtin t

/-- Witness of C17: the token `-fw` after `cli_parser_init` at program start. -/
theorem scan_order_witness :
    resolve (cli_parser_init initial).cmd_table "-fw".toList CMD_MAX =
      lookup_forward (cli_parser_init initial).cmd_table "-fw".toList 0 :=
  (scan_order (cli_parser_init initial).cmd_table "-fw".toList CMD_MAX).2.2
    (cli_parser_init initial) rfl

/-- C12 (help output): in the state that `cli_parser_init` leaves in a registry
with the built-in descriptors, a line `vboard -h ...` or `vboard help ...`
makes `cli_parse` produce exactly the call of `cmd_help` with count 0; run in
the state of that call, `cmd_help` opens `/tmp/pipe_rx`, issues exactly
`CMD_MAX + 1 = 9` writes and closes: first the header `Available Commands:`,
then one text per descriptor in table order, made of the name preceded by
spaces, the short name in parentheses, ` - `, the help text and a newline;
every write is its text, free of NUL, followed by one NUL. -/
theorem help_output (st : State) (line : List Char) (rest : List (List Char))
    (hst : TableOK st)
    (hl : tokens line = vboard_str :: "-h".toList :: rest ∨
      tokens line = vboard_str :: "help".toList :: rest) :
    (cli_parse (cli_parser_init st) line).out = [Event.call Handler.cmd_help 0 []] ∧
    ∃ ws : List (List Char),
      cmd_help (cli_parse (cli_parser_init st) line).state 0 [] =
        some (SinkOp.open (some "/tmp/pipe_rx") :: (ws.map SinkOp.write ++ [SinkOp.close])) ∧
      ws.length = CMD_MAX + 1 ∧
      ws = ("Available Commands:\n".toList ++ ['\x00']) ::
        cmd_table.map (fun d =>
          List.replicate (20 - d.name.length) ' ' ++ d.name.toList ++ " (".toList ++
            d.short_name.toList ++ ") - ".toList ++ d.doc.toList ++ "\n".toList ++ ['\x00']) ∧
      ∀ w ∈ ws, ∃ txt, w = txt ++ ['\x00'] ∧ '\x00' ∉ txt := by
  have hok := table_ok_init st hst
  obtain ⟨d1, hd1, hdd⟩ := table_ok_entry st hst 7 _ (rfl : cmd_table[7]? = some _)
  simp only [descr, Prod.mk.injEq] at hdd
  have hname : d1.name = "help" := hdd.1
  have hshort : d1.short_name = "-h" := hdd.2.1
  have hargc : d1.argc = 0 := hdd.2.2.1
  have hd2 := cli_parser_init_handlers st 7 d1 (by decide) hd1
  simp only [CMD_HELP, if_true] at hd2
  refine ⟨?_, ?_⟩
  · rcases hl with hl | hl
    · rw [cli_parse_known_enough (cli_parser_init st) hok 7 _ Handler.cmd_help hd2 rfl line
        "-h".toList rest (Or.inr (by simp only [hshort])) hl (by simp only [hargc]; omega)]
      simp only [hargc]
      rfl
    · rw [cli_parse_known_enough (cli_parser_init st) hok 7 _ Handler.cmd_help hd2 rfl line
        "help".toList rest (Or.inl (by simp only [hname])) hl (by simp only [hargc]; omega)]
      simp only [hargc]
      rfl
  · have hlines : cmd_help_lines (cli_parse (cli_parser_init st) line).state.cmd_table =
        cmd_help_lines cmd_table := by
      rw [(cli_parse_table _ line).1]
      exact cmd_help_lines_table_ok _ hok
    have hfifo : (cli_parse (cli_parser_init st) line).state.fifo_name = some "/tmp/pipe_rx" := by
      rw [(cli_parse_table _ line).2]
      rfl
    have hfit := cmd_help_lines_fit
    refine ⟨(cmd_help_lines cmd_table).map (fun l => l ++ ['\x00']), ?_, ?_, ?_, ?_⟩
    · simp only [cmd_help, hlines, hfifo, hfit, if_true, List.map_map]
      rfl
    · rfl
    · rw [cmd_help_lines_eq cmd_table rfl]
      simp only [List.map_cons, List.map_map, List.cons.injEq]
      refine ⟨rfl, ?_⟩
      apply List.map_congr_left
      intro d _
      simp only [Function.comp, help_line_eq]
    · intro w hw
      obtain ⟨l, hlm, hlw⟩ := List.mem_map.mp hw
      exact ⟨l, hlw.symm, cmd_help_lines_no_nul l hlm⟩

/-- Witness of C12: the line `vboard -h` after `cli_parser_init` at program
start. -/
theorem help_output_witness :
    (cli_parse (cli_parser_init initial) "vboard -h".toList).out =
      [Event.call Handler.cmd_help 0 []] :=
  (help_output initial "vboard -h".toList [] table_ok_initial (Or.inl (by decide))).1

/-- C14 (default handlers), counterexample: after `cli_parser_init` the line
`vboard set_instance 10,200,0` calls the placeholder with the three arguments,
and what the placeholder prints is `cmd_dummy: 10,200,0` and a newline: the
name `set_instance` of the dispatched command does not occur in it, and neither
does its short name `-i`. -/
theorem placeholder_omits_command_name :
    (cli_parse (cli_parser_init initial) "vboard set_instance 10,200,0".toList).out =
      [Event.call Handler.cmd_dummy 3
        [some "10".toList, some "200".toList, some "0".toList]] ∧
    cmd_dummy 3 [some "10".toList, some "200".toList, some "0".toList] =
      some "cmd_dummy: 10,200,0\n".toList ∧
    ¬ ("set_instance".toList <:+: "cmd_dummy: 10,200,0\n".toList) ∧
    ¬ ("-i".toList <:+: "cmd_dummy: 10,200,0\n".toList) := by
  decide

/-- C14 (default handlers), amended: in the state that `cli_parser_init` leaves
in a registry with the built-in descriptors, the commands 0 to 6 are bound to
`cmd_dummy` and command 7, `help`, to `cmd_help`; a line for one of the commands
0 to 6 with enough tokens calls `cmd_dummy` with the arity and the arguments;
for arguments whose report fits in `buffer`, `cmd_dummy` prints exactly the
fixed text `cmd_dummy: `, the arguments separated by commas, and a newline; so
the report of such a dispatch is exactly that text on the first `argc` tokens
behind the command token, whichever of the commands 0 to 6 was dispatched. -/
theorem default_handlers (st : State) (hst : TableOK st) :
    (∀ i, i < CMD_MAX →
      ∃ d, (cli_parser_init st).cmd_table[i]? = some d ∧
        d.cmd_func = some (if i = CMD_HELP then Handler.cmd_help else Handler.cmd_dummy)) ∧
    (∀ (i : Nat) (d : cmd_t) (line t : List Char) (rest : List (List Char)),
      i < CMD_HELP → (cli_parser_init st).cmd_table[i]? = some d →
      (t = d.name.toList ∨ t = d.short_name.toList) →
      tokens line = vboard_str :: t :: rest → d.argc ≤ rest.length →
      (cli_parse (cli_parser_init st) line).out =
        [Event.call Handler.cmd_dummy d.argc ((rest.take d.argc).map some)]) ∧
    (∀ ts : List (List Char),
      ("cmd_dummy: ".toList ++ [','].intercalate ts).length < BUFFER_LEN →
      cmd_dummy ts.length (ts.map some) =
        some ("cmd_dummy: ".toList ++ [','].intercalate ts ++ "\n".toList)) ∧
    (∀ (i : Nat) (d : cmd_t) (line t : List Char) (rest : List (List Char)),
      i < CMD_HELP → (cli_parser_init st).cmd_table[i]? = some d →
      (t = d.name.toList ∨ t = d.short_name.toList) →
      tokens line = vboard_str :: t :: rest → d.argc ≤ rest.length →
      ("cmd_dummy: ".toList ++ [','].intercalate (rest.take d.argc)).length < BUFFER_LEN →
      ∃ args, (cli_parse (cli_parser_init st) line).out =
          [Event.call Handler.cmd_dummy d.argc args] ∧
        cmd_dummy d.argc args =
          some ("cmd_dummy: ".toList ++ [','].intercalate (rest.take d.argc) ++
            "\n".toList)) := by
  have hbound : ∀ i, i < CMD_MAX →
      ∃ d, (cli_parser_init st).cmd_table[i]? = some d ∧
        d.cmd_func = some (if i = CMD_HELP then Handler.cmd_help else Handler.cmd_dummy) := by
    intro i hi
    have hlt : i < st.cmd_table.length := by rw [table_ok_length st hst]; exact hi
    exact ⟨_, cli_parser_init_handlers st i _ hi (List.getElem?_eq_getElem hlt), rfl⟩
  have hcall : ∀ (i : Nat) (d : cmd_t) (line t : List Char) (rest : List (List Char)),
      i < CMD_HELP → (cli_parser_init st).cmd_table[i]? = some d →
      (t = d.name.toList ∨ t = d.short_name.toList) →
      tokens line = vboard_str :: t :: rest → d.argc ≤ rest.length →
      (cli_parse (cli_parser_init st) line).out =
        [Event.call Handler.cmd_dummy d.argc ((rest.take d.argc).map some)] := by
    intro i d line t rest hi hd ht hl hn
    obtain ⟨d1, hd1, hf⟩ := hbound i (by simp only [CMD_HELP, CMD_MAX] at hi ⊢; omega)
    rw [hd] at hd1
    simp only [Option.some.injEq] at hd1
    subst hd1
    rw [if_neg (Nat.ne_of_lt hi)] at hf
    rw [cli_parse_known_enough _ (table_ok_init st hst) i d Handler.cmd_dummy hd hf line t rest
      ht hl hn]
  have hreport : ∀ ts : List (List Char),
      ("cmd_dummy: ".toList ++ [','].intercalate ts).length < BUFFER_LEN →
      cmd_dummy ts.length (ts.map some) =
        some ("cmd_dummy: ".toList ++ [','].intercalate ts ++ "\n".toList) := by
    intro ts hfit
    have h0 : sprintf "cmd_dummy: " [] = "cmd_dummy: ".toList := by decide
    have hloop := cmd_dummy_loop_tokens ts ts.length 0 ("cmd_dummy: ".toList) (by simp)
      (by simpa using hfit)
    simp only [List.drop_zero] at hloop
    simp only [cmd_dummy, h0, hloop]
    simp [sprintf, format_go, conv_s, Char.isDigit]
  refine ⟨hbound, hcall, hreport, ?_⟩
  intro i d line t rest hi hd ht hl hn hfit
  refine ⟨(rest.take d.argc).map some, hcall i d line t rest hi hd ht hl hn, ?_⟩
  have hlen : (rest.take d.argc).length = d.argc := by
    rw [List.length_take]; omega
  have h := hreport (rest.take d.argc) hfit
  rw [hlen] at h
  exact h

/-- Witness of C14: after `cli_parser_init` at program start, `CMD_SET_OWN_SPN`
is bound to `cmd_dummy`, and the report for the arguments `7` and `8` is
`cmd_dummy: 7,8` and a newline. -/
theorem default_handlers_witness :
    (∃ d, (cli_parser_init initial).cmd_table[3]? = some d ∧
      d.cmd_func = some (if 3 = CMD_HELP then Handler.cmd_help else Handler.cmd_dummy)) ∧
    cmd_dummy ["7".toList, "8".toList].length (["7".toList, "8".toList].map some) =
      some ("cmd_dummy: ".toList ++ [','].intercalate ["7".toList, "8".toList] ++
        "\n".toList) :=
  ⟨(default_handlers initial table_ok_initial).1 3 (by decide),
    (default_handlers initial table_ok_initial).2.2.1 ["7".toList, "8".toList] (by decide)⟩

/-- C18 (help line format), counterexample: the help line of `help` is the name
preceded by 16 spaces, not followed by them, so it differs from the line padded
after the name; and the names do not start in one column: `set_instance` starts
after 8 spaces, `help` after 16. -/
theorem help_name_padded_before :
    help_line (cmd_table.getD 7 ⟨"", "", none, 0, ""⟩) =
      "                help (-h) - Display this help.\n".toList ∧
    spec_help_line (cmd_table.getD 7 ⟨"", "", none, 0, ""⟩) =
      "help                 (-h) - Display this help.\n".toList ∧
    help_line (cmd_table.getD 7 ⟨"", "", none, 0, ""⟩) ≠
      spec_help_line (cmd_table.getD 7 ⟨"", "", none, 0, ""⟩) ∧
    (help_line (cmd_table.getD 0 ⟨"", "", none, 0, ""⟩)).take 20 =
      "        set_instance".toList := by
  decide

/-- C18 (help line format), amended: for every descriptor of a registry with
the built-in descriptors, the name has at most 20 characters and the help line
is the name padded before its first character with spaces to 20 columns, then
a space, the short name in parentheses, ` - `, the help text and a newline; so
the first 20 columns of every line are spaces followed by the name, and the
names of all lines end in the same column. -/
theorem help_line_format (st : State) (d : cmd_t) (hst : TableOK st)
    (hd : d ∈ st.cmd_table) :
    d.name.length ≤ 20 ∧
    help_line d =
      List.replicate (20 - d.name.length) ' ' ++ d.name.toList ++ " (".toList ++
        d.short_name.toList ++ ") - ".toList ++ d.doc.toList ++ "\n".toList ∧
    (help_line d).take 20 = List.replicate (20 - d.name.length) ' ' ++ d.name.toList ∧
    ((help_line d).take (20 - d.name.length)).all (fun c => c == ' ') = true ∧
    ((help_line d).drop (20 - d.name.length)).take d.name.length = d.name.toList := by
  have hmem : descr d ∈ cmd_table.map descr := by
    rw [← hst]; exact List.mem_map_of_mem descr hd
  have hall : ∀ p ∈ cmd_table.map descr, p.1.length ≤ 20 := by decide
  have hlen : d.name.length ≤ 20 := hall _ hmem
  have hl2 : d.name.toList.length = d.name.length := rfl
  have hrep : (List.replicate (20 - d.name.length) ' ').length = 20 - d.name.length :=
    List.length_replicate _ _
  refine ⟨hlen, help_line_eq d, ?_, ?_, ?_⟩
  · rw [help_line_eq]
    simp only [List.append_assoc]
    rw [← List.append_assoc, List.take_append_of_le_length (by rw [List.length_append]; omega)]
    exact List.take_of_length_le (by rw [List.length_append]; omega)
  · rw [help_line_eq]
    simp only [List.append_assoc]
    rw [List.take_append_of_le_length (by omega), List.take_of_length_le (by omega)]
    simp
  · rw [help_line_eq]
    simp only [List.append_assoc]
    rw [List.drop_append_of_le_length (by omega), List.drop_of_length_le (by omega),
      List.nil_append, List.take_append_of_le_length (by omega)]
    exact List.take_of_length_le (by omega)

/-- Witness of C18: the descriptor of `set_instance` at program start. -/
theorem help_line_format_witness :
    (help_line (cmd_table.getD 0 ⟨"", "", none, 0, ""⟩)).take 20 =
      List.replicate (20 - (cmd_table.getD 0 ⟨"", "", none, 0, ""⟩).name.length) ' ' ++
        (cmd_table.getD 0 ⟨"", "", none, 0, ""⟩).name.toList :=
  (help_line_format initial (cmd_table.getD 0 ⟨"", "", none, 0, ""⟩) table_ok_initial
    (by decide)).2.2.1

/-- C13 (idempotence of dispatch), counterexample: after `cli_parser_init` the
line `vboard -i 10,200,0` calls the handler once; `strtok` has then overwritten
the delimiter behind every token with NUL, so the line content left in the
buffer reads `vboard` only, and dispatching the buffer again, in the state the
first dispatch left, prints `Command Not Found` and calls no handler. -/
theorem second_dispatch_of_consumed_line :
    (cli_parse (cli_parser_init initial) "vboard -i 10,200,0".toList).out =
      [Event.call Handler.cmd_dummy 3
        [some "10".toList, some "200".toList, some "0".toList]] ∧
    cli_parse_buffer (cli_parser_init initial) "vboard -i 10,200,0".toList =
      "vboard\x00-i\x0010\x00200\x000".toList ∧
    (cli_parse (cli_parse (cli_parser_init initial) "vboard -i 10,200,0".toList).state
      (cli_parse_buffer (cli_parser_init initial) "vboard -i 10,200,0".toList)).out =
      [Event.puts "Command Not Found"] := by
  decide

/-- C13 (idempotence of dispatch), amended: in a registry with the built-in
descriptors, for a valid line (program name, name or alias of a command with a
bound handler, enough arguments), the dispatch calls the handler once, and a
dispatch of the same text in the state that the first dispatch left calls the
same handler with the same count and the same arguments; the first dispatch
leaves the table as it was.  The text has to be supplied again: the buffer that
the first dispatch leaves holds the program name as its only token, and its
dispatch prints `Command Not Found`. -/
theorem dispatch_same_text_twice (st : State) (c : Nat) (d : cmd_t) (f : Handler)
    (line t : List Char) (rest : List (List Char))
    (hst : TableOK st) (hd : st.cmd_table[c]? = some d) (hf : d.cmd_func = some f)
    (ht : t = d.name.toList ∨ t = d.short_name.toList)
    (hl : tokens line = vboard_str :: t :: rest) (hn : d.argc ≤ rest.length) :
    (cli_parse st line).out = [Event.call f d.argc ((rest.take d.argc).map some)] ∧
    (cli_parse (cli_parse st line).state line).out =
      [Event.call f d.argc ((rest.take d.argc).map some)] ∧
    (cli_parse st line).state.cmd_table = st.cmd_table ∧
    (cli_parse (cli_parse st line).state (cli_parse_buffer st line)).out =
      [Event.puts "Command Not Found"] := by
  have h1 := cli_parse_known_enough st hst c d f hd hf line t rest ht hl hn
  have hst1 : TableOK (cli_parse st line).state := by
    unfold TableOK
    rw [(cli_parse_table st line).1]
    exact hst
  have hd1 : (cli_parse st line).state.cmd_table[c]? = some d := by
    rw [(cli_parse_table st line).1]
    exact hd
  have h2 := cli_parse_known_enough (cli_parse st line).state hst1 c d f hd1 hf line t rest
    ht hl hn
  refine ⟨by rw [h1], by rw [h2], (cli_parse_table st line).1, ?_⟩
  rw [cli_parse_no_command _ _ (tokens_cli_parse_buffer st line vboard_str t rest hl)]

/-- Witness of C13: the line `vboard -i 10,200,0` after `cli_parser_init`. -/
theorem dispatch_same_text_twice_witness :
    (cli_parse (cli_parse (cli_parser_init initial) "vboard -i 10,200,0".toList).state
      "vboard -i 10,200,0".toList).out =
      [Event.call Handler.cmd_dummy 3
        [some "10".toList, some "200".toList, some "0".toList]] :=
  (dispatch_same_text_twice (cli_parser_init initial) 0
    ((cli_parser_init initial).cmd_table.headD ⟨"", "", none, 0, ""⟩) Handler.cmd_dummy
    "vboard -i 10,200,0".toList "-i".toList ["10".toList, "200".toList, "0".toList]
    rfl rfl rfl (Or.inr rfl) (by decide) (by decide)).2.1

end CliBoard
